import Mathlib

/-!
Verification of the trust-critical core of the tickets library: canonical
CBOR encoding of ticket values, SHA-256-based ticket identity, ed25519
signing and verification wrappers, the replay guard, and the quorum
verifier.

The development shallowly embeds the TypeScript sources:

* bytes are `List Nat` (each element a byte value);
* JSON-like ticket values are the inductive `Value` (strings, integers,
  IEEE-754 doubles kept as 64-bit patterns, booleans, null, arrays,
  insertion-ordered string-keyed objects, and the explicit `undefined`
  marker that the encoder must reject);
* fallible operations return `Except LibError`;
* the ed25519 curve primitives and the byte-level canonical CBOR / SHA-256
  algorithms live in external packages (noble curves, cborg, node crypto),
  so they are either taken as explicit function parameters (curve cores)
  or modelled from the spec (canonical CBOR byte format, SHA-256), while
  every check, branch and loop of the repository's own code is translated
  directly from the source.
-/

namespace Tickets

/-! ## Bytes and lowercase hex -/

/-- Modelled from the spec: hex rendering of bytes is lowercase, two digits
per byte, no prefix (the byte/hex utility module is external to the staged
sources; only its behaviour is specified). Digit for one hex nibble. -/
def hexDigit (n : Nat) : Char :=
  if n < 10 then Char.ofNat (48 + n) else Char.ofNat (87 + n)

/-- Modelled from the spec: lowercase hex string of a byte list, as produced
by the hex helpers and by the node digest used for ticket identities. -/
def bytesToHex (bs : List Nat) : String :=
  String.mk ((bs.map (fun b => [hexDigit (b / 16), hexDigit (b % 16)])).flatten)

/-! ## UTF-8

The canonical encoder writes strings as UTF-8 with explicit byte length.
`utf8Char`/`utf8Bytes` produce the standard 1–4 byte encoding of each
scalar value, and `utf8DecodeAll` inverts it. -/

/-- Standard UTF-8 bytes of one unicode scalar value. -/
def utf8Char (c : Char) : List Nat :=
  if c.toNat < 128 then [c.toNat]
  else if c.toNat < 2048 then [192 + c.toNat / 64, 128 + c.toNat % 64]
  else if c.toNat < 65536 then
    [224 + c.toNat / 4096, 128 + c.toNat / 64 % 64, 128 + c.toNat % 64]
  else
    [240 + c.toNat / 262144, 128 + c.toNat / 4096 % 64,
     128 + c.toNat / 64 % 64, 128 + c.toNat % 64]

/-- UTF-8 bytes of a whole string. -/
def utf8Bytes (s : String) : List Nat :=
  (s.data.map utf8Char).flatten

/-- Continuation-byte test for the UTF-8 decoder. -/
def isCont (b : Nat) : Bool :=
  128 ≤ b && b < 192

/-- Decode one UTF-8 scalar from the front of a byte list. -/
def utf8DecodeOne : List Nat → Option (Char × List Nat)
  | [] => none
  | b :: rest =>
    if b < 128 then some (Char.ofNat b, rest)
    else if b < 192 then none
    else if b < 224 then
      match rest with
      | b1 :: r =>
        if isCont b1 then some (Char.ofNat ((b - 192) * 64 + (b1 - 128)), r) else none
      | [] => none
    else if b < 240 then
      match rest with
      | b1 :: b2 :: r =>
        if isCont b1 && isCont b2 then
          some (Char.ofNat ((b - 224) * 4096 + (b1 - 128) * 64 + (b2 - 128)), r)
        else none
      | _ => none
    else if b < 248 then
      match rest with
      | b1 :: b2 :: b3 :: r =>
        if isCont b1 && isCont b2 && isCont b3 then
          some (Char.ofNat
            ((b - 240) * 262144 + (b1 - 128) * 4096 + (b2 - 128) * 64 + (b3 - 128)), r)
        else none
      | _ => none
    else none

/-- Fuelled loop decoding a whole byte list into characters. -/
def utf8DecodeAllGo : Nat → List Nat → Option (List Char)
  | _, [] => some []
  | 0, _ :: _ => none
  | fuel + 1, b :: rest =>
    match utf8DecodeOne (b :: rest) with
    | some (c, r) =>
      match utf8DecodeAllGo fuel r with
      | some cs => some (c :: cs)
      | none => none
    | none => none

/-- Decode a whole byte list into characters (all bytes must be consumed). -/
def utf8DecodeAll (bs : List Nat) : Option (List Char) :=
  utf8DecodeAllGo bs.length bs

theorem char_toNat_lt (c : Char) : c.toNat < 1114112 := by
  have h := c.valid
  rcases h with h | h
  · have : c.val.toNat < 55296 := h
    simpa [Char.toNat] using this.trans (by norm_num)
  · exact h.2

theorem utf8Char_length_pos (c : Char) : 0 < (utf8Char c).length := by
  unfold utf8Char
  split_ifs <;> simp

theorem utf8DecodeOne_utf8Char (c : Char) (rest : List Nat) :
    utf8DecodeOne (utf8Char c ++ rest) = some (c, rest) := by
  have hv : c.toNat < 1114112 := char_toNat_lt c
  unfold utf8Char
  by_cases h1 : c.toNat < 128
  · simp only [h1, if_true]
    simp [utf8DecodeOne, h1, Char.ofNat_toNat]
  · by_cases h2 : c.toNat < 2048
    · simp only [h1, h2, if_false, if_true]
      have e1 : ¬ (192 + c.toNat / 64 < 128) := by omega
      have e2 : ¬ (192 + c.toNat / 64 < 192) := by omega
      have e3 : 192 + c.toNat / 64 < 224 := by omega
      have e4 : isCont (128 + c.toNat % 64) = true := by
        simp [isCont]; omega
      simp [utf8DecodeOne, e1, e2, e3, e4]
      have hval : c.toNat / 64 * 64 + c.toNat % 64 = c.toNat := by omega
      rw [hval, Char.ofNat_toNat]
    · by_cases h3 : c.toNat < 65536
      · simp only [h1, h2, h3, if_false, if_true]
        have e1 : ¬ (224 + c.toNat / 4096 < 128) := by omega
        have e2 : ¬ (224 + c.toNat / 4096 < 192) := by omega
        have e3 : ¬ (224 + c.toNat / 4096 < 224) := by omega
        have e4 : 224 + c.toNat / 4096 < 240 := by omega
        have e5 : isCont (128 + c.toNat / 64 % 64) = true := by
          simp [isCont]; omega
        have e6 : isCont (128 + c.toNat % 64) = true := by
          simp [isCont]; omega
        simp [utf8DecodeOne, e1, e2, e3, e4, e5, e6]
        have hval : c.toNat / 4096 * 4096 + c.toNat / 64 % 64 * 64 + c.toNat % 64
            = c.toNat := by omega
        rw [hval, Char.ofNat_toNat]
      · simp only [h1, h2, h3, if_false]
        have e1 : ¬ (240 + c.toNat / 262144 < 128) := by omega
        have e2 : ¬ (240 + c.toNat / 262144 < 192) := by omega
        have e3 : ¬ (240 + c.toNat / 262144 < 224) := by omega
        have e4 : ¬ (240 + c.toNat / 262144 < 240) := by omega
        have e5 : 240 + c.toNat / 262144 < 248 := by omega
        have e6 : isCont (128 + c.toNat / 4096 % 64) = true := by
          simp [isCont]; omega
        have e7 : isCont (128 + c.toNat / 64 % 64) = true := by
          simp [isCont]; omega
        have e8 : isCont (128 + c.toNat % 64) = true := by
          simp [isCont]; omega
        simp [utf8DecodeOne, e1, e2, e3, e4, e5, e6, e7, e8]
        have hval : c.toNat / 262144 * 262144 + c.toNat / 4096 % 64 * 4096
            + c.toNat / 64 % 64 * 64 + c.toNat % 64 = c.toNat := by omega
        rw [hval, Char.ofNat_toNat]

theorem utf8DecodeAllGo_bytes :
    ∀ (cs : List Char) (fuel : Nat),
      ((cs.map utf8Char).flatten).length ≤ fuel →
      utf8DecodeAllGo fuel ((cs.map utf8Char).flatten) = some cs := by
  intro cs
  induction cs with
  | nil => intro fuel _; simp [utf8DecodeAllGo]
  | cons c cs ih =>
    intro fuel hf
    have hne : 0 < (utf8Char c).length := utf8Char_length_pos c
    obtain ⟨b, t, hcb⟩ : ∃ b t, utf8Char c = b :: t := by
      cases hx : utf8Char c with
      | nil => rw [hx] at hne; simp at hne
      | cons b t => exact ⟨b, t, rfl⟩
    have hone := utf8DecodeOne_utf8Char c ((cs.map utf8Char).flatten)
    simp only [List.map_cons, List.flatten_cons] at hf ⊢
    rw [hcb] at hone hf ⊢
    cases fuel with
    | zero => simp at hf
    | succ f =>
      have hrest : ((cs.map utf8Char).flatten).length ≤ f := by
        simp only [List.length_cons, List.length_append] at hf; omega
      have hone2 : utf8DecodeOne (b :: (t ++ (cs.map utf8Char).flatten))
          = some (c, (cs.map utf8Char).flatten) := by
        simpa using hone
      simp only [List.cons_append, utf8DecodeAllGo, List.append_eq, hone2, ih f hrest]

theorem utf8DecodeAll_utf8Bytes (s : String) :
    utf8DecodeAll (utf8Bytes s) = some s.data := by
  exact utf8DecodeAllGo_bytes s.data (utf8Bytes s).length (le_refl _)

theorem utf8Bytes_injective {s1 s2 : String} (h : utf8Bytes s1 = utf8Bytes s2) :
    s1 = s2 := by
  have h1 := utf8DecodeAll_utf8Bytes s1
  have h2 := utf8DecodeAll_utf8Bytes s2
  rw [h] at h1
  rw [h1] at h2
  exact String.ext (Option.some.inj h2)

/-! ## Error taxonomy

The sources throw plain `Error` values with fixed messages; the spec's
error taxonomy names those failure conditions.  The embedding maps each
throw site to the taxonomy's constructor. -/

/-- Failure kinds of the library (spec section 7). -/
inductive LibError where
  | encodingError
  | decodingError
  | invalidKeyLength
  | invalidSignatureLength
deriving DecidableEq

instance {e a : Type} [DecidableEq e] [DecidableEq a] : DecidableEq (Except e a) :=
  fun x y =>
    match x, y with
    | .ok v, .ok w =>
      match decEq v w with
      | isTrue h => isTrue (h ▸ rfl)
      | isFalse h => isFalse (fun he => h (Except.ok.inj he))
    | .error v, .error w =>
      match decEq v w with
      | isTrue h => isTrue (h ▸ rfl)
      | isFalse h => isFalse (fun he => h (Except.error.inj he))
    | .ok _, .error _ => isFalse (fun he => Except.noConfusion he)
    | .error _, .ok _ => isFalse (fun he => Except.noConfusion he)

/-! ## Ticket values

A `Value` is the JSON-like data the canonical encoder accepts: strings,
integer-valued numbers, non-integer numbers (kept as their IEEE-754
double bit pattern), booleans, null, arrays, string-keyed objects in
insertion order, and the explicit `undefined` marker (`vUndef`) that the
encoder must reject. -/

inductive Value where
  | vStr : String → Value
  | vInt : Int → Value
  | vFloat : Nat → Value
  | vBool : Bool → Value
  | vNull : Value
  | vUndef : Value
  | vArr : List Value → Value
  | vMap : List (String × Value) → Value

/-! ## Canonical CBOR bytes

Modelled from the spec: the byte-level encoding lives in the external
cborg package; the spec fixes its canonical rules (shortest integer
argument, UTF-8 strings with explicit byte length, lexicographic
byte-wise key order, one fixed width and bit pattern per float value).
Major types and argument encoding follow standard CBOR. -/

/-- Big-endian bytes of a value over a fixed width. -/
def beBytes : Nat → Nat → List Nat
  | 0, _ => []
  | k + 1, n => (n / 256 ^ k) :: beBytes k (n % 256 ^ k)

/-- Value of big-endian bytes. -/
def beVal (bs : List Nat) : Nat :=
  bs.foldl (fun acc b => acc * 256 + b) 0

/-- CBOR initial bytes for a major type and its argument, using the
shortest argument representation. -/
def cborHeader (major : Nat) (arg : Nat) : List Nat :=
  if arg < 24 then [major * 32 + arg]
  else if arg < 256 then [major * 32 + 24, arg]
  else if arg < 65536 then (major * 32 + 25) :: beBytes 2 arg
  else if arg < 4294967296 then (major * 32 + 26) :: beBytes 4 arg
  else (major * 32 + 27) :: beBytes 8 arg

/-- CBOR text-string item for one string. -/
def encStr (s : String) : List Nat :=
  cborHeader 3 (utf8Bytes s).length ++ utf8Bytes s

mutual

/-- CBOR bytes of one value (entries are emitted in the order given;
`canonV` below puts maps into canonical key order first). -/
def encV : Value → List Nat
  | .vStr s => encStr s
  | .vInt n => if 0 ≤ n then cborHeader 0 n.toNat else cborHeader 1 (-1 - n).toNat
  | .vFloat bits => 251 :: beBytes 8 bits
  | .vBool false => [244]
  | .vBool true => [245]
  | .vNull => [246]
  | .vUndef => [247]
  | .vArr items => cborHeader 4 items.length ++ encL items
  | .vMap entries => cborHeader 5 entries.length ++ encE entries

/-- CBOR bytes of array elements. -/
def encL : List Value → List Nat
  | [] => []
  | v :: vs => encV v ++ encL vs

/-- CBOR bytes of map entries. -/
def encE : List (String × Value) → List Nat
  | [] => []
  | (k, v) :: es => encStr k ++ encV v ++ encE es

end

/-! ### Canonical key order -/

/-- Byte-wise lexicographic order on byte lists. -/
def lexLe : List Nat → List Nat → Bool
  | [], _ => true
  | _ :: _, [] => false
  | a :: as, b :: bs => if a < b then true else if a = b then lexLe as bs else false

/-- Order on map entries: lexicographic byte-wise order of the UTF-8
bytes of the keys. -/
def entryLe (x y : String × Value) : Prop :=
  lexLe (utf8Bytes x.1) (utf8Bytes y.1) = true

instance : DecidableRel entryLe :=
  fun x y => decidable_of_iff (lexLe (utf8Bytes x.1) (utf8Bytes y.1) = true) Iff.rfl

theorem lexLe_cons {a b : Nat} {as bs : List Nat} :
    lexLe (a :: as) (b :: bs) = true ↔ a < b ∨ (a = b ∧ lexLe as bs = true) := by
  simp only [lexLe]
  split_ifs with h1 h2
  · simp [h1]
  · simp [h1, h2]
  · simp [h1, h2]

theorem lexLe_total : ∀ as bs : List Nat, lexLe as bs = true ∨ lexLe bs as = true := by
  intro as
  induction as with
  | nil => intro bs; left; rfl
  | cons a as ih =>
    intro bs
    cases bs with
    | nil => right; rfl
    | cons b t =>
      rcases Nat.lt_trichotomy a b with h | h | h
      · left; rw [lexLe_cons]; exact Or.inl h
      · subst h
        rcases ih t with hx | hx
        · left; rw [lexLe_cons]; exact Or.inr ⟨rfl, hx⟩
        · right; rw [lexLe_cons]; exact Or.inr ⟨rfl, hx⟩
      · right; rw [lexLe_cons]; exact Or.inl h

theorem lexLe_trans : ∀ as bs cs : List Nat,
    lexLe as bs = true → lexLe bs cs = true → lexLe as cs = true := by
  intro as
  induction as with
  | nil => intro bs cs _ _; rfl
  | cons a as ih =>
    intro bs cs h1 h2
    cases bs with
    | nil => simp [lexLe] at h1
    | cons b bt =>
      cases cs with
      | nil => simp [lexLe] at h2
      | cons c ct =>
        rw [lexLe_cons] at h1 h2 ⊢
        rcases h1 with h1 | ⟨hab, h1⟩
        · rcases h2 with h2 | ⟨hbc, _⟩
          · exact Or.inl (h1.trans h2)
          · exact Or.inl (hbc ▸ h1)
        · rcases h2 with h2 | ⟨hbc, h2⟩
          · exact Or.inl (hab ▸ h2)
          · exact Or.inr ⟨hab.trans hbc, ih bt ct h1 h2⟩

theorem lexLe_antisymm : ∀ as bs : List Nat,
    lexLe as bs = true → lexLe bs as = true → as = bs := by
  intro as
  induction as with
  | nil =>
    intro bs _ h2
    cases bs with
    | nil => rfl
    | cons b t => simp [lexLe] at h2
  | cons a as ih =>
    intro bs h1 h2
    cases bs with
    | nil => simp [lexLe] at h1
    | cons b t =>
      rw [lexLe_cons] at h1 h2
      rcases h1 with h1 | ⟨hab, h1⟩
      · rcases h2 with h2 | ⟨hba, _⟩
        · omega
        · omega
      · rcases h2 with h2 | ⟨_, h2⟩
        · omega
        · rw [hab, ih t h1 h2]

instance : IsTotal (String × Value) entryLe :=
  ⟨fun x y => lexLe_total (utf8Bytes x.1) (utf8Bytes y.1)⟩

instance : IsTrans (String × Value) entryLe :=
  ⟨fun _ _ _ h1 h2 => lexLe_trans _ _ _ h1 h2⟩

/-- Canonical (deterministic) order for the entries of one map. -/
def sortEntries (es : List (String × Value)) : List (String × Value) :=
  List.insertionSort entryLe es

mutual

/-- Canonicalize a value: sort every map's entries into canonical key
order, recursively.  Models the effect of the encoder's canonical map
ordering. -/
def canonV : Value → Value
  | .vArr items => .vArr (canonL items)
  | .vMap entries => .vMap (sortEntries (canonE entries))
  | v => v

/-- Canonicalize array elements. -/
def canonL : List Value → List Value
  | [] => []
  | v :: vs => canonV v :: canonL vs

/-- Canonicalize map entry values. -/
def canonE : List (String × Value) → List (String × Value)
  | [] => []
  | (k, v) :: es => (k, canonV v) :: canonE es

end

/-! ### Rejecting the absent marker (from src `cbor.ts`, `assertNoUndefined`) -/

mutual

/-- Walk of the value rejecting `undefined` anywhere, translated from
`assertNoUndefined`: `undefined` itself throws, `null` returns, arrays
and objects recurse, other primitives fall through. -/
def assertNoUndefined : Value → Except LibError Unit
  | .vUndef => .error .encodingError
  | .vNull => .ok ()
  | .vArr items => assertNoUndefinedList items
  | .vMap entries => assertNoUndefinedEntries entries
  | _ => .ok ()

/-- Element-wise walk of an array. -/
def assertNoUndefinedList : List Value → Except LibError Unit
  | [] => .ok ()
  | v :: vs => do
    assertNoUndefined v
    assertNoUndefinedList vs

/-- Entry-wise walk of an object. -/
def assertNoUndefinedEntries : List (String × Value) → Except LibError Unit
  | [] => .ok ()
  | (_, v) :: es => do
    assertNoUndefined v
    assertNoUndefinedEntries es

end

mutual

/-- Does a value contain the absent (`undefined`) marker at any depth? -/
def containsUndef : Value → Bool
  | .vUndef => true
  | .vArr items => containsUndefList items
  | .vMap entries => containsUndefEntries entries
  | _ => false

/-- Absent marker somewhere in an array. -/
def containsUndefList : List Value → Bool
  | [] => false
  | v :: vs => containsUndef v || containsUndefList vs

/-- Absent marker somewhere among an object's values. -/
def containsUndefEntries : List (String × Value) → Bool
  | [] => false
  | (_, v) :: es => containsUndef v || containsUndefEntries es

end

/-! ### Structural validity

The domain of values the encoder round-trips over: no absent marker,
every CBOR argument (integer magnitude, float pattern, lengths) within
the 8-byte argument range, and no duplicate keys inside one object
(JavaScript objects cannot have two entries with the same key). -/

/-- Keys of one object are pairwise distinct. -/
def nodupKeys (es : List (String × Value)) : Bool :=
  decide ((es.map Prod.fst).Nodup)

mutual

/-- Structurally valid value (see section comment). -/
def wfV : Value → Bool
  | .vStr s => decide ((utf8Bytes s).length < 18446744073709551616)
  | .vInt n => decide (n < 18446744073709551616 ∧ -18446744073709551616 ≤ n)
  | .vFloat bits => decide (bits < 18446744073709551616)
  | .vBool _ => true
  | .vNull => true
  | .vUndef => false
  | .vArr items => decide (items.length < 18446744073709551616) && wfL items
  | .vMap entries =>
    decide (entries.length < 18446744073709551616) && nodupKeys entries && wfE entries

/-- Structural validity of array elements. -/
def wfL : List Value → Bool
  | [] => true
  | v :: vs => wfV v && wfL vs

/-- Structural validity of map entries. -/
def wfE : List (String × Value) → Bool
  | [] => true
  | (k, v) :: es => decide ((utf8Bytes k).length < 18446744073709551616) && wfV v && wfE es

end

/-! ### The encoder and decoder entry points (from src `cbor.ts`) -/

/-- Translated from `encodeCbor`: reject values containing `undefined`,
then emit canonical CBOR (the cborg call with `canonical: true`,
modelled as canonicalization followed by the byte emitter). -/
def encodeCbor (value : Value) : Except LibError (List Nat) := do
  assertNoUndefined value
  pure (encV (canonV value))

/-- Read exactly `n` bytes. -/
def readN : Nat → List Nat → Option (List Nat × List Nat)
  | 0, bs => some ([], bs)
  | _ + 1, [] => none
  | k + 1, b :: bs =>
    match readN k bs with
    | some (xs, r) => some (b :: xs, r)
    | none => none

/-- Parse one CBOR initial-bytes sequence into (major, argument, rest). -/
def parseHeader : List Nat → Option (Nat × Nat × List Nat)
  | [] => none
  | b :: rest =>
    if b % 32 < 24 then some (b / 32, b % 32, rest)
    else if b % 32 = 24 then
      match rest with
      | x :: r => some (b / 32, x, r)
      | [] => none
    else if b % 32 = 25 then
      match readN 2 rest with
      | some (xs, r) => some (b / 32, beVal xs, r)
      | none => none
    else if b % 32 = 26 then
      match readN 4 rest with
      | some (xs, r) => some (b / 32, beVal xs, r)
      | none => none
    else if b % 32 = 27 then
      match readN 8 rest with
      | some (xs, r) => some (b / 32, beVal xs, r)
      | none => none
    else none

mutual

/-- Fuelled CBOR item parser (the decoder of the external cborg package,
modelled from the spec: exact inverse of the canonical emitter). -/
def decodeItem : Nat → List Nat → Option (Value × List Nat)
  | 0, _ => none
  | fuel + 1, bs =>
    match bs with
    | [] => none
    | b :: rest =>
      if b = 244 then some (.vBool false, rest)
      else if b = 245 then some (.vBool true, rest)
      else if b = 246 then some (.vNull, rest)
      else if b = 247 then some (.vUndef, rest)
      else if b = 251 then
        match readN 8 rest with
        | some (xs, r) => some (.vFloat (beVal xs), r)
        | none => none
      else
        match parseHeader (b :: rest) with
        | some (0, arg, r) => some (.vInt (Int.ofNat arg), r)
        | some (1, arg, r) => some (.vInt (-1 - Int.ofNat arg), r)
        | some (3, arg, r) =>
          match readN arg r with
          | some (sb, r2) =>
            match utf8DecodeAll sb with
            | some cs => some (.vStr (String.mk cs), r2)
            | none => none
          | none => none
        | some (4, arg, r) =>
          match decodeItems fuel arg r with
          | some (items, r2) => some (.vArr items, r2)
          | none => none
        | some (5, arg, r) =>
          match decodeEntries fuel arg r with
          | some (entries, r2) => some (.vMap entries, r2)
          | none => none
        | _ => none
termination_by fuel bs => (fuel, 0)

/-- Parse `n` consecutive array elements. -/
def decodeItems : Nat → Nat → List Nat → Option (List Value × List Nat)
  | _, 0, bs => some ([], bs)
  | fuel, n + 1, bs =>
    match decodeItem fuel bs with
    | some (v, r) =>
      match decodeItems fuel n r with
      | some (vs, r2) => some (v :: vs, r2)
      | none => none
    | none => none
termination_by fuel n bs => (fuel, n + 1)

/-- Parse `n` consecutive map entries (string key then value). -/
def decodeEntries : Nat → Nat → List Nat → Option (List (String × Value) × List Nat)
  | _, 0, bs => some ([], bs)
  | fuel, n + 1, bs =>
    match decodeItem fuel bs with
    | some (.vStr k, r) =>
      match decodeItem fuel r with
      | some (v, r2) =>
        match decodeEntries fuel n r2 with
        | some (es, r3) => some ((k, v) :: es, r3)
        | none => none
      | none => none
    | some _ => none
    | none => none
termination_by fuel n bs => (fuel, n + 1)

end

/-- Translated from `decodeCbor`: parse one item from the bytes (a
trailing remainder is ignored, matching the documented behaviour that
only the first item is returned); malformed bytes fail with the
decoding error. -/
def decodeCbor (bs : List Nat) : Except LibError Value :=
  match decodeItem (bs.length + 1) bs with
  | some (v, _) => .ok v
  | none => .error .decodingError

/-- Translated from `isDeterministicEncode`: encode twice and compare. -/
def isDeterministicEncode (value : Value) : Except LibError Bool := do
  let a ← encodeCbor value
  let b ← encodeCbor value
  pure (decide (a = b))

/-! ### Byte-level round-trip lemmas -/

theorem beBytes_length : ∀ (k n : Nat), (beBytes k n).length = k := by
  intro k
  induction k with
  | zero => intro n; rfl
  | succ k ih => intro n; simp [beBytes, ih]

theorem beVal_aux : ∀ (k n acc : Nat), n < 256 ^ k →
    (beBytes k n).foldl (fun a b => a * 256 + b) acc = acc * 256 ^ k + n := by
  intro k
  induction k with
  | zero =>
    intro n acc h
    simp [beBytes]
    omega
  | succ k ih =>
    intro n acc h
    have hpos : 0 < 256 ^ k := Nat.pos_pow_of_pos k (by norm_num)
    have hdm : 256 ^ k * (n / 256 ^ k) + n % 256 ^ k = n := Nat.div_add_mod n (256 ^ k)
    calc (beBytes (k + 1) n).foldl (fun a b => a * 256 + b) acc
        = (beBytes k (n % 256 ^ k)).foldl (fun a b => a * 256 + b)
            (acc * 256 + n / 256 ^ k) := by
          simp [beBytes]
      _ = (acc * 256 + n / 256 ^ k) * 256 ^ k + n % 256 ^ k :=
          ih (n % 256 ^ k) _ (Nat.mod_lt _ hpos)
      _ = acc * 256 ^ (k + 1) + (256 ^ k * (n / 256 ^ k) + n % 256 ^ k) := by ring
      _ = acc * 256 ^ (k + 1) + n := by rw [hdm]

theorem beVal_beBytes (k n : Nat) (h : n < 256 ^ k) : beVal (beBytes k n) = n := by
  simpa [beVal] using beVal_aux k n 0 h

theorem readN_exact : ∀ (xs rest : List Nat), readN xs.length (xs ++ rest) = some (xs, rest) := by
  intro xs
  induction xs with
  | nil => intro rest; rfl
  | cons x t ih => intro rest; simp [readN, ih]

theorem parseHeader_cborHeader (major arg : Nat) (hm : major < 8)
    (ha : arg < 18446744073709551616) (tail : List Nat) :
    parseHeader (cborHeader major arg ++ tail) = some (major, arg, tail) := by
  unfold cborHeader
  split_ifs with h1 h2 h3 h4
  · have e1 : (major * 32 + arg) % 32 = arg := by omega
    have e2 : (major * 32 + arg) / 32 = major := by omega
    simp [parseHeader, e1, e2, h1]
  · have e1 : (major * 32 + 24) % 32 = 24 := by omega
    have e2 : (major * 32 + 24) / 32 = major := by omega
    simp [parseHeader, e1, e2]
  · have e1 : (major * 32 + 25) % 32 = 25 := by omega
    have e2 : (major * 32 + 25) / 32 = major := by omega
    have hr : readN 2 (beBytes 2 arg ++ tail) = some (beBytes 2 arg, tail) := by
      have h := readN_exact (beBytes 2 arg) tail
      rwa [beBytes_length] at h
    have hv : beVal (beBytes 2 arg) = arg := beVal_beBytes 2 arg (by norm_num; omega)
    simp [parseHeader, e1, e2, hr, hv]
  · have e1 : (major * 32 + 26) % 32 = 26 := by omega
    have e2 : (major * 32 + 26) / 32 = major := by omega
    have hr : readN 4 (beBytes 4 arg ++ tail) = some (beBytes 4 arg, tail) := by
      have h := readN_exact (beBytes 4 arg) tail
      rwa [beBytes_length] at h
    have hv : beVal (beBytes 4 arg) = arg := beVal_beBytes 4 arg (by norm_num; omega)
    simp [parseHeader, e1, e2, hr, hv]
  · have e1 : (major * 32 + 27) % 32 = 27 := by omega
    have e2 : (major * 32 + 27) / 32 = major := by omega
    have hr : readN 8 (beBytes 8 arg ++ tail) = some (beBytes 8 arg, tail) := by
      have h := readN_exact (beBytes 8 arg) tail
      rwa [beBytes_length] at h
    have hv : beVal (beBytes 8 arg) = arg := beVal_beBytes 8 arg (by norm_num; omega)
    simp [parseHeader, e1, e2, hr, hv]

theorem cborHeader_head (major arg : Nat) (hm : major ≤ 5) :
    ∃ b t, cborHeader major arg = b :: t ∧ b < 192 := by
  unfold cborHeader
  split_ifs with h1 h2 h3 h4
  · exact ⟨major * 32 + arg, [], rfl, by omega⟩
  · exact ⟨major * 32 + 24, [arg], rfl, by omega⟩
  · exact ⟨major * 32 + 25, beBytes 2 arg, rfl, by omega⟩
  · exact ⟨major * 32 + 26, beBytes 4 arg, rfl, by omega⟩
  · exact ⟨major * 32 + 27, beBytes 8 arg, rfl, by omega⟩

/-- Continuation of `decodeItem` once the initial bytes are parsed; proof
device for the round-trip argument. -/
def decodeBody (fuel major arg : Nat) (r : List Nat) : Option (Value × List Nat) :=
  match major with
  | 0 => some (.vInt (Int.ofNat arg), r)
  | 1 => some (.vInt (-1 - Int.ofNat arg), r)
  | 3 =>
    match readN arg r with
    | some (sb, r2) =>
      match utf8DecodeAll sb with
      | some cs => some (.vStr (String.mk cs), r2)
      | none => none
    | none => none
  | 4 =>
    match decodeItems fuel arg r with
    | some (items, r2) => some (.vArr items, r2)
    | none => none
  | 5 =>
    match decodeEntries fuel arg r with
    | some (entries, r2) => some (.vMap entries, r2)
    | none => none
  | _ => none

theorem decodeItem_header (fuel major arg : Nat) (tail bs : List Nat) (b : Nat)
    (rest : List Nat) (hbs : bs = b :: rest) (hb : b < 192) (hmaj : major < 6)
    (hph : parseHeader bs = some (major, arg, tail)) :
    decodeItem (fuel + 1) bs = decodeBody fuel major arg tail := by
  subst hbs
  have h244 : ¬ b = 244 := by omega
  have h245 : ¬ b = 245 := by omega
  have h246 : ¬ b = 246 := by omega
  have h247 : ¬ b = 247 := by omega
  have h251 : ¬ b = 251 := by omega
  rw [decodeItem]
  simp only [h244, h245, h246, h247, h251, if_false, hph]
  interval_cases major <;> rfl

theorem cborHeader_length_pos (m a : Nat) : 0 < (cborHeader m a).length := by
  unfold cborHeader
  split_ifs <;> simp

theorem decodeItem_encHeader (f major arg : Nat) (tail : List Nat)
    (hm5 : major ≤ 5) (ha : arg < 18446744073709551616) :
    decodeItem (f + 1) (cborHeader major arg ++ tail) = decodeBody f major arg tail := by
  obtain ⟨b, t, hh, hb⟩ := cborHeader_head major arg hm5
  have hph := parseHeader_cborHeader major arg (by omega) ha tail
  rw [hh] at hph ⊢
  exact decodeItem_header f major arg tail _ b (t ++ tail) (by simp) hb (by omega) hph

/-! ### Round trip: the parser inverts the emitter -/

mutual

theorem decodeItem_encV : ∀ (v : Value) (fuel : Nat) (rest : List Nat),
    wfV v = true → (encV v).length < fuel →
    decodeItem fuel (encV v ++ rest) = some (v, rest)
  | .vStr s, fuel, rest, hwf, hf => by
    obtain ⟨f, rfl⟩ : ∃ f, fuel = f + 1 := ⟨fuel - 1, by omega⟩
    have hlen : (utf8Bytes s).length < 18446744073709551616 := by
      simpa [wfV] using hwf
    have hstep : decodeItem (f + 1) (encV (.vStr s) ++ rest)
        = decodeBody f 3 (utf8Bytes s).length (utf8Bytes s ++ rest) := by
      have := decodeItem_encHeader f 3 (utf8Bytes s).length (utf8Bytes s ++ rest)
        (by omega) hlen
      simpa [encV, encStr, List.append_assoc] using this
    rw [hstep]
    have hr := readN_exact (utf8Bytes s) rest
    have hmk : String.mk s.data = s := String.ext rfl
    simp [decodeBody, hr, utf8DecodeAll_utf8Bytes s, hmk]
  | .vInt n, fuel, rest, hwf, hf => by
    obtain ⟨f, rfl⟩ : ∃ f, fuel = f + 1 := ⟨fuel - 1, by omega⟩
    have hrange : n < 18446744073709551616 ∧ -18446744073709551616 ≤ n := by
      simpa [wfV] using hwf
    by_cases h0 : 0 ≤ n
    · have harg : n.toNat < 18446744073709551616 := by omega
      have hstep : decodeItem (f + 1) (encV (.vInt n) ++ rest)
          = decodeBody f 0 n.toNat rest := by
        have := decodeItem_encHeader f 0 n.toNat rest (by omega) harg
        simpa [encV, h0] using this
      rw [hstep]
      have hcast : (Int.ofNat n.toNat) = n := by
        rw [Int.ofNat_eq_coe, Int.toNat_of_nonneg h0]
      simp only [decodeBody, hcast]
    · have harg : (-1 - n).toNat < 18446744073709551616 := by omega
      have hstep : decodeItem (f + 1) (encV (.vInt n) ++ rest)
          = decodeBody f 1 (-1 - n).toNat rest := by
        have := decodeItem_encHeader f 1 (-1 - n).toNat rest (by omega) harg
        simpa [encV, h0] using this
      rw [hstep]
      have hcast : -1 - (Int.ofNat ((-1 - n).toNat)) = n := by
        rw [Int.ofNat_eq_coe, Int.toNat_of_nonneg (by omega : (0 : Int) ≤ -1 - n)]
        ring
      simp only [decodeBody, hcast]
  | .vFloat bits, fuel, rest, hwf, hf => by
    obtain ⟨f, rfl⟩ : ∃ f, fuel = f + 1 := ⟨fuel - 1, by omega⟩
    have hb : bits < 18446744073709551616 := by simpa [wfV] using hwf
    have hr : readN 8 (beBytes 8 bits ++ rest) = some (beBytes 8 bits, rest) := by
      have h := readN_exact (beBytes 8 bits) rest
      rwa [beBytes_length] at h
    have hv : beVal (beBytes 8 bits) = bits := beVal_beBytes 8 bits (by norm_num; omega)
    rw [show encV (.vFloat bits) ++ rest = 251 :: (beBytes 8 bits ++ rest) from by
      simp [encV]]
    rw [decodeItem]
    simp [hr, hv]
  | .vBool false, fuel, rest, hwf, hf => by
    obtain ⟨f, rfl⟩ : ∃ f, fuel = f + 1 := ⟨fuel - 1, by omega⟩
    rw [show encV (.vBool false) ++ rest = 244 :: rest from by simp [encV]]
    rw [decodeItem]
    simp
  | .vBool true, fuel, rest, hwf, hf => by
    obtain ⟨f, rfl⟩ : ∃ f, fuel = f + 1 := ⟨fuel - 1, by omega⟩
    rw [show encV (.vBool true) ++ rest = 245 :: rest from by simp [encV]]
    rw [decodeItem]
    simp
  | .vNull, fuel, rest, hwf, hf => by
    obtain ⟨f, rfl⟩ : ∃ f, fuel = f + 1 := ⟨fuel - 1, by omega⟩
    rw [show encV .vNull ++ rest = 246 :: rest from by simp [encV]]
    rw [decodeItem]
    simp
  | .vUndef, fuel, rest, hwf, hf => by
    simp [wfV] at hwf
  | .vArr items, fuel, rest, hwf, hf => by
    obtain ⟨f, rfl⟩ : ∃ f, fuel = f + 1 := ⟨fuel - 1, by omega⟩
    rw [wfV] at hwf
    simp only [Bool.and_eq_true, decide_eq_true_eq] at hwf
    obtain ⟨hlen, hwl⟩ := hwf
    have hlt : (encL items).length < f := by
      have hp := cborHeader_length_pos 4 items.length
      rw [show encV (.vArr items) = cborHeader 4 items.length ++ encL items from by
        simp [encV]] at hf
      rw [List.length_append] at hf
      omega
    have hstep : decodeItem (f + 1) (encV (.vArr items) ++ rest)
        = decodeBody f 4 items.length (encL items ++ rest) := by
      have := decodeItem_encHeader f 4 items.length (encL items ++ rest)
        (by omega) hlen
      simpa [encV, List.append_assoc] using this
    rw [hstep]
    simp [decodeBody, decodeItems_encL items f rest hwl hlt]
  | .vMap entries, fuel, rest, hwf, hf => by
    obtain ⟨f, rfl⟩ : ∃ f, fuel = f + 1 := ⟨fuel - 1, by omega⟩
    rw [wfV] at hwf
    simp only [Bool.and_eq_true, decide_eq_true_eq] at hwf
    obtain ⟨⟨hlen, _⟩, hwe⟩ := hwf
    have hlt : (encE entries).length < f := by
      have hp := cborHeader_length_pos 5 entries.length
      rw [show encV (.vMap entries) = cborHeader 5 entries.length ++ encE entries from by
        simp [encV]] at hf
      rw [List.length_append] at hf
      omega
    have hstep : decodeItem (f + 1) (encV (.vMap entries) ++ rest)
        = decodeBody f 5 entries.length (encE entries ++ rest) := by
      have := decodeItem_encHeader f 5 entries.length (encE entries ++ rest)
        (by omega) hlen
      simpa [encV, List.append_assoc] using this
    rw [hstep]
    simp [decodeBody, decodeEntries_encE entries f rest hwe hlt]
termination_by v fuel rest hwf hf => sizeOf v

theorem decodeItems_encL : ∀ (vs : List Value) (fuel : Nat) (rest : List Nat),
    wfL vs = true → (encL vs).length < fuel →
    decodeItems fuel vs.length (encL vs ++ rest) = some (vs, rest)
  | [], fuel, rest, _, _ => by simp [encL, decodeItems]
  | v :: t, fuel, rest, hwf, hf => by
    rw [wfL] at hwf
    simp only [Bool.and_eq_true] at hwf
    obtain ⟨hwv, hwt⟩ := hwf
    have hlen : (encL (v :: t)).length = (encV v).length + (encL t).length := by
      simp [encL]
    have h1 : (encV v).length < fuel := by omega
    have h2 : (encL t).length < fuel := by omega
    have hv := decodeItem_encV v fuel (encL t ++ rest) hwv h1
    have ht := decodeItems_encL t fuel rest hwt h2
    rw [show encL (v :: t) ++ rest = encV v ++ (encL t ++ rest) from by
      simp [encL]]
    rw [List.length_cons, decodeItems]
    simp [hv, ht]
termination_by vs fuel rest hwf hf => sizeOf vs

theorem decodeEntries_encE : ∀ (es : List (String × Value)) (fuel : Nat) (rest : List Nat),
    wfE es = true → (encE es).length < fuel →
    decodeEntries fuel es.length (encE es ++ rest) = some (es, rest)
  | [], fuel, rest, _, _ => by simp [encE, decodeEntries]
  | (k, v) :: t, fuel, rest, hwf, hf => by
    rw [wfE] at hwf
    simp only [Bool.and_eq_true, decide_eq_true_eq] at hwf
    obtain ⟨⟨hk, hwv⟩, hwt⟩ := hwf
    have hlen : (encE ((k, v) :: t)).length
        = (encStr k).length + ((encV v).length + (encE t).length) := by
      simp [encE]
    have h1 : (encV (.vStr k)).length < fuel := by
      rw [show encV (.vStr k) = encStr k from by simp [encV]]
      omega
    have h2 : (encV v).length < fuel := by omega
    have h3 : (encE t).length < fuel := by omega
    have hkstr := decodeItem_encV (.vStr k) fuel (encV v ++ (encE t ++ rest))
      (by simp [wfV]; exact hk) h1
    have hv := decodeItem_encV v fuel (encE t ++ rest) hwv h2
    have ht := decodeEntries_encE t fuel rest hwt h3
    rw [show encE ((k, v) :: t) ++ rest
        = encV (.vStr k) ++ (encV v ++ (encE t ++ rest)) from by
      simp [encE, encV]]
    rw [List.length_cons, decodeEntries]
    simp [hkstr, hv, ht]
termination_by es fuel rest hwf hf => sizeOf es

end

/-! ### Structural equality of decoded and original values

JavaScript deep equality of two JSON-like values: objects compare as
finite mappings (same keys, equal values), regardless of entry order. -/

/-- First value bound to a key in an entry list. -/
def lookupEntry (k : String) : List (String × Value) → Option Value
  | [] => none
  | (k2, v) :: es => if k2 = k then some v else lookupEntry k es

mutual

/-- Deep equality; maps compare as mappings (order-insensitive). -/
def sEqV : Value → Value → Bool
  | .vStr a, .vStr b => a == b
  | .vInt a, .vInt b => a == b
  | .vFloat a, .vFloat b => a == b
  | .vBool a, .vBool b => a == b
  | .vNull, .vNull => true
  | .vUndef, .vUndef => true
  | .vArr a, .vArr b => sEqL a b
  | .vMap a, .vMap b => (a.length == b.length) && sEqE a b
  | _, _ => false

/-- Pointwise deep equality of arrays. -/
def sEqL : List Value → List Value → Bool
  | [], [] => true
  | a :: as, b :: bs => sEqV a b && sEqL as bs
  | _, _ => false

/-- Every entry of the first map is bound, deep-equally, in the second. -/
def sEqE : List (String × Value) → List (String × Value) → Bool
  | [], _ => true
  | (k, v) :: es, bs =>
    (match lookupEntry k bs with
     | some w => sEqV v w
     | none => false) && sEqE es bs

end

/-! ### The undefined check agrees with `containsUndef` -/

mutual

theorem assertNoUndefined_eq : ∀ (v : Value),
    assertNoUndefined v
      = if containsUndef v = true then Except.error LibError.encodingError
        else Except.ok ()
  | .vStr s => by simp [assertNoUndefined, containsUndef]
  | .vInt n => by simp [assertNoUndefined, containsUndef]
  | .vFloat b => by simp [assertNoUndefined, containsUndef]
  | .vBool b => by simp [assertNoUndefined, containsUndef]
  | .vNull => by simp [assertNoUndefined, containsUndef]
  | .vUndef => by simp [assertNoUndefined, containsUndef]
  | .vArr items => by
    rw [show assertNoUndefined (.vArr items) = assertNoUndefinedList items from rfl]
    rw [assertNoUndefinedList_eq items]
    simp [containsUndef]
  | .vMap entries => by
    rw [show assertNoUndefined (.vMap entries) = assertNoUndefinedEntries entries from rfl]
    rw [assertNoUndefinedEntries_eq entries]
    simp [containsUndef]

theorem assertNoUndefinedList_eq : ∀ (vs : List Value),
    assertNoUndefinedList vs
      = if containsUndefList vs = true then Except.error LibError.encodingError
        else Except.ok ()
  | [] => by simp [assertNoUndefinedList, containsUndefList]
  | v :: vs => by
    rw [assertNoUndefinedList]
    rw [assertNoUndefined_eq v, assertNoUndefinedList_eq vs]
    by_cases h : containsUndef v = true <;>
      simp [containsUndefList, h, Bind.bind, Except.bind]

theorem assertNoUndefinedEntries_eq : ∀ (es : List (String × Value)),
    assertNoUndefinedEntries es
      = if containsUndefEntries es = true then Except.error LibError.encodingError
        else Except.ok ()
  | [] => by simp [assertNoUndefinedEntries, containsUndefEntries]
  | (k, v) :: es => by
    rw [assertNoUndefinedEntries]
    rw [assertNoUndefined_eq v, assertNoUndefinedEntries_eq es]
    by_cases h : containsUndef v = true <;>
      simp [containsUndefEntries, h, Bind.bind, Except.bind]

end

mutual

theorem containsUndef_of_wf : ∀ (v : Value), wfV v = true → containsUndef v = false
  | .vStr s, _ => rfl
  | .vInt n, _ => rfl
  | .vFloat b, _ => rfl
  | .vBool b, _ => rfl
  | .vNull, _ => rfl
  | .vUndef, h => by simp [wfV] at h
  | .vArr items, h => by
    rw [wfV] at h
    simp only [Bool.and_eq_true] at h
    exact containsUndefList_of_wf items h.2
  | .vMap entries, h => by
    rw [wfV] at h
    simp only [Bool.and_eq_true] at h
    exact containsUndefEntries_of_wf entries h.2

theorem containsUndefList_of_wf : ∀ (vs : List Value),
    wfL vs = true → containsUndefList vs = false
  | [], _ => rfl
  | v :: vs, h => by
    rw [wfL] at h
    simp only [Bool.and_eq_true] at h
    rw [containsUndefList]
    rw [containsUndef_of_wf v h.1, containsUndefList_of_wf vs h.2]
    rfl

theorem containsUndefEntries_of_wf : ∀ (es : List (String × Value)),
    wfE es = true → containsUndefEntries es = false
  | [], _ => rfl
  | (k, v) :: es, h => by
    rw [wfE] at h
    simp only [Bool.and_eq_true] at h
    rw [containsUndefEntries]
    rw [containsUndef_of_wf v h.1.2, containsUndefEntries_of_wf es h.2]
    rfl

end

/-! ### Canonicalization preserves structural validity -/

theorem canonE_length : ∀ (es : List (String × Value)), (canonE es).length = es.length := by
  intro es
  induction es with
  | nil => rfl
  | cons kv t ih =>
    obtain ⟨k, v⟩ := kv
    simp [canonE, ih]

theorem canonL_length : ∀ (vs : List Value), (canonL vs).length = vs.length := by
  intro vs
  induction vs with
  | nil => rfl
  | cons v t ih => simp [canonL, ih]

theorem canonE_fst : ∀ (es : List (String × Value)),
    (canonE es).map Prod.fst = es.map Prod.fst := by
  intro es
  induction es with
  | nil => rfl
  | cons kv t ih =>
    obtain ⟨k, v⟩ := kv
    simp [canonE, ih]

theorem canonE_mem : ∀ {k : String} {w : Value} {es : List (String × Value)},
    (k, w) ∈ canonE es → ∃ v0, (k, v0) ∈ es ∧ w = canonV v0 := by
  intro k w es
  induction es with
  | nil => intro h; simp [canonE] at h
  | cons kv t ih =>
    obtain ⟨k2, v2⟩ := kv
    intro h
    rw [canonE] at h
    rcases List.mem_cons.1 h with h | h
    · obtain ⟨hk, hw⟩ := Prod.mk.injEq .. ▸ h
      exact ⟨v2, by simp [hk.symm], hw⟩
    · obtain ⟨v0, hv0, hw⟩ := ih h
      exact ⟨v0, List.mem_cons_of_mem _ hv0, hw⟩

theorem sortEntries_perm (es : List (String × Value)) : (sortEntries es).Perm es :=
  List.perm_insertionSort entryLe es

theorem sortEntries_length (es : List (String × Value)) :
    (sortEntries es).length = es.length :=
  (sortEntries_perm es).length_eq

theorem perm_all_eq {α : Type} {l1 l2 : List α} (h : l1.Perm l2) (p : α → Bool) :
    l1.all p = l2.all p := by
  induction h with
  | nil => rfl
  | cons x _ ih => simp [List.all_cons, ih]
  | swap x y l => simp [List.all_cons, Bool.and_left_comm, Bool.and_comm]
  | trans _ _ ih1 ih2 => rw [ih1, ih2]

theorem wfE_eq_all : ∀ (es : List (String × Value)),
    wfE es = es.all (fun kv =>
      decide ((utf8Bytes kv.1).length < 18446744073709551616) && wfV kv.2) := by
  intro es
  induction es with
  | nil => rfl
  | cons kv t ih =>
    obtain ⟨k, v⟩ := kv
    simp [wfE, List.all_cons, ih, Bool.and_assoc]

theorem nodupKeys_perm {es1 es2 : List (String × Value)} (h : es1.Perm es2) :
    nodupKeys es1 = nodupKeys es2 := by
  unfold nodupKeys
  have := (h.map Prod.fst).nodup_iff
  by_cases h1 : (es1.map Prod.fst).Nodup
  · simp [h1, this.1 h1]
  · have h2 : ¬(es2.map Prod.fst).Nodup := fun hx => h1 (this.2 hx)
    simp [h1, h2]

mutual

theorem wfV_canonV : ∀ (v : Value), wfV v = true → wfV (canonV v) = true
  | .vStr s, h => by simpa [canonV] using h
  | .vInt n, h => by simpa [canonV] using h
  | .vFloat b, h => by simpa [canonV] using h
  | .vBool b, h => by simpa [canonV] using h
  | .vNull, h => by simpa [canonV] using h
  | .vUndef, h => by simp [wfV] at h
  | .vArr items, h => by
    rw [wfV] at h
    simp only [Bool.and_eq_true, decide_eq_true_eq] at h
    rw [canonV, wfV]
    simp only [Bool.and_eq_true, decide_eq_true_eq]
    exact ⟨by rw [canonL_length]; exact h.1, wfL_canonL items h.2⟩
  | .vMap entries, h => by
    rw [wfV] at h
    simp only [Bool.and_eq_true, decide_eq_true_eq] at h
    obtain ⟨⟨hlen, hnd⟩, hwe⟩ := h
    rw [canonV, wfV]
    simp only [Bool.and_eq_true, decide_eq_true_eq]
    have hperm : (sortEntries (canonE entries)).Perm (canonE entries) :=
      sortEntries_perm _
    refine ⟨⟨?_, ?_⟩, ?_⟩
    · rw [sortEntries_length, canonE_length]; exact hlen
    · rw [nodupKeys_perm hperm]
      unfold nodupKeys
      rw [canonE_fst]
      exact hnd
    · rw [wfE_eq_all, perm_all_eq hperm, ← wfE_eq_all]
      exact wfE_canonE entries hwe

theorem wfL_canonL : ∀ (vs : List Value), wfL vs = true → wfL (canonL vs) = true
  | [], _ => rfl
  | v :: t, h => by
    rw [wfL] at h
    simp only [Bool.and_eq_true] at h
    rw [canonL, wfL]
    simp only [Bool.and_eq_true]
    exact ⟨wfV_canonV v h.1, wfL_canonL t h.2⟩

theorem wfE_canonE : ∀ (es : List (String × Value)), wfE es = true → wfE (canonE es) = true
  | [], _ => rfl
  | (k, v) :: t, h => by
    rw [wfE] at h
    simp only [Bool.and_eq_true, decide_eq_true_eq] at h
    rw [canonE, wfE]
    simp only [Bool.and_eq_true, decide_eq_true_eq]
    exact ⟨⟨h.1.1, wfV_canonV v h.1.2⟩, wfE_canonE t h.2⟩

end

/-! ### Whole-pipeline round trip -/

theorem encodeCbor_ok (v : Value) (hwf : wfV v = true) :
    encodeCbor v = .ok (encV (canonV v)) := by
  unfold encodeCbor
  rw [assertNoUndefined_eq, containsUndef_of_wf v hwf]
  rfl

theorem decodeCbor_encV_canonV (v : Value) (hwf : wfV v = true) :
    decodeCbor (encV (canonV v)) = .ok (canonV v) := by
  unfold decodeCbor
  have hwfc := wfV_canonV v hwf
  have h := decodeItem_encV (canonV v) ((encV (canonV v)).length + 1) [] hwfc (by omega)
  rw [List.append_nil] at h
  rw [h]

/-! ### The canonicalized value is the same mapping as the original -/

theorem lookupEntry_mem : ∀ {k : String} {v0 : Value} {es : List (String × Value)},
    (k, v0) ∈ es → nodupKeys es = true → lookupEntry k es = some v0 := by
  intro k v0 es
  induction es with
  | nil => intro h _; simp at h
  | cons kv t ih =>
    obtain ⟨k2, v2⟩ := kv
    intro hmem hnd
    simp only [nodupKeys, List.map_cons, List.nodup_cons, decide_eq_true_eq] at hnd
    rcases List.mem_cons.1 hmem with h | h
    · obtain ⟨hk, hv⟩ := Prod.mk.injEq .. ▸ h
      rw [lookupEntry, if_pos hk.symm, hv]
    · have hne : ¬ k2 = k := by
        intro he
        exact hnd.1 (he ▸ List.mem_map_of_mem Prod.fst h)
      rw [lookupEntry, if_neg hne]
      exact ih h (by simp [nodupKeys, hnd.2])

theorem sEqE_pointwise : ∀ {as bs : List (String × Value)},
    (∀ kw ∈ as, ∃ v0, lookupEntry kw.1 bs = some v0 ∧ sEqV kw.2 v0 = true) →
    sEqE as bs = true := by
  intro as bs
  induction as with
  | nil => intro _; rfl
  | cons kv t ih =>
    obtain ⟨k, v⟩ := kv
    intro h
    obtain ⟨v0, hl, he⟩ := h (k, v) (List.mem_cons_self _ _)
    rw [sEqE, hl]
    simp only [Bool.and_eq_true]
    exact ⟨he, ih (fun kw hkw => h kw (List.mem_cons_of_mem _ hkw))⟩

mutual

theorem canonV_structEq : ∀ (v : Value), wfV v = true → sEqV (canonV v) v = true
  | .vStr s, _ => by simp [canonV, sEqV]
  | .vInt n, _ => by simp [canonV, sEqV]
  | .vFloat b, _ => by simp [canonV, sEqV]
  | .vBool b, _ => by simp [canonV, sEqV]
  | .vNull, _ => by simp [canonV, sEqV]
  | .vUndef, h => by simp [wfV] at h
  | .vArr items, h => by
    rw [wfV] at h
    simp only [Bool.and_eq_true, decide_eq_true_eq] at h
    rw [canonV]
    rw [show sEqV (.vArr (canonL items)) (.vArr items) = sEqL (canonL items) items
      from rfl]
    exact canonL_structEq items h.2
  | .vMap entries, h => by
    rw [wfV] at h
    simp only [Bool.and_eq_true, decide_eq_true_eq] at h
    obtain ⟨⟨hlen, hnd⟩, hwe⟩ := h
    rw [canonV]
    rw [show sEqV (.vMap (sortEntries (canonE entries))) (.vMap entries)
        = (((sortEntries (canonE entries)).length == entries.length)
          && sEqE (sortEntries (canonE entries)) entries) from rfl]
    have hl : (sortEntries (canonE entries)).length = entries.length := by
      rw [sortEntries_length, canonE_length]
    simp only [hl, beq_self_eq_true, Bool.true_and]
    apply sEqE_pointwise
    intro kw hkw
    have hkw2 : kw ∈ canonE entries := (sortEntries_perm (canonE entries)).mem_iff.1 hkw
    obtain ⟨k, w⟩ := kw
    obtain ⟨v0, hv0mem, hw⟩ := canonE_mem hkw2
    refine ⟨v0, lookupEntry_mem hv0mem ?_, ?_⟩
    · exact hnd
    · rw [hw]
      exact canonE_vals entries hwe (k, v0) hv0mem
termination_by v h => sizeOf v

theorem canonL_structEq : ∀ (vs : List Value), wfL vs = true → sEqL (canonL vs) vs = true
  | [], _ => rfl
  | v :: t, h => by
    rw [wfL] at h
    simp only [Bool.and_eq_true] at h
    rw [canonL]
    rw [show sEqL (canonV v :: canonL t) (v :: t)
        = (sEqV (canonV v) v && sEqL (canonL t) t) from rfl]
    simp only [Bool.and_eq_true]
    exact ⟨canonV_structEq v h.1, canonL_structEq t h.2⟩
termination_by vs h => sizeOf vs

theorem canonE_vals : ∀ (es : List (String × Value)), wfE es = true →
    ∀ kv ∈ es, sEqV (canonV kv.2) kv.2 = true
  | [], _, kv, hm => absurd hm (List.not_mem_nil _)
  | (k, v) :: t, hwf, kv, hm => by
    rw [wfE] at hwf
    simp only [Bool.and_eq_true, decide_eq_true_eq] at hwf
    rcases List.mem_cons.1 hm with h | h
    · rw [h]
      exact canonV_structEq v hwf.1.2
    · exact canonE_vals t hwf.2 kv h
termination_by es h kv hm => sizeOf es

end

/-! ### Canonical order is unique on duplicate-free key sets -/

theorem entryLe_key_antisymm {x y : String × Value} (h1 : entryLe x y)
    (h2 : entryLe y x) : x.1 = y.1 :=
  utf8Bytes_injective (lexLe_antisymm _ _ h1 h2)

theorem sorted_perm_nodupKeys_eq : ∀ (l1 l2 : List (String × Value)),
    List.Sorted entryLe l1 → List.Sorted entryLe l2 → l1.Perm l2 →
    (l2.map Prod.fst).Nodup → l1 = l2 := by
  intro l1
  induction l1 with
  | nil =>
    intro l2 _ _ hp _
    exact (hp.symm.eq_nil).symm ▸ rfl
  | cons a t1 ih =>
    intro l2 hs1 hs2 hp hnd
    cases l2 with
    | nil => exact absurd hp.eq_nil (by simp)
    | cons b t2 =>
      by_cases hab : a = b
      · subst hab
        have hts := hp.cons_inv
        have := ih t2 hs1.of_cons hs2.of_cons hts (by
          simp only [List.map_cons, List.nodup_cons] at hnd
          exact hnd.2)
        rw [this]
      · exfalso
        have hain : a ∈ b :: t2 := hp.mem_iff.1 (List.mem_cons_self _ _)
        have hat2 : a ∈ t2 := by
          rcases List.mem_cons.1 hain with h | h
          · exact absurd h hab
          · exact h
        have hba : entryLe b a := List.rel_of_sorted_cons hs2 a hat2
        have hbin : b ∈ a :: t1 := hp.mem_iff.2 (List.mem_cons_self _ _)
        have hbt1 : b ∈ t1 := by
          rcases List.mem_cons.1 hbin with h | h
          · exact absurd h.symm hab
          · exact h
        have habr : entryLe a b := List.rel_of_sorted_cons hs1 b hbt1
        have hkey : a.1 = b.1 := entryLe_key_antisymm habr hba
        simp only [List.map_cons, List.nodup_cons] at hnd
        exact hnd.1 (hkey ▸ List.mem_map_of_mem Prod.fst hat2)

theorem sortEntries_sorted (es : List (String × Value)) :
    List.Sorted entryLe (sortEntries es) :=
  List.sorted_insertionSort entryLe es

theorem sortEntries_eq_of_perm {es1 es2 : List (String × Value)} (h : es1.Perm es2)
    (hnd : nodupKeys es2 = true) : sortEntries es1 = sortEntries es2 := by
  apply sorted_perm_nodupKeys_eq _ _ (sortEntries_sorted es1) (sortEntries_sorted es2)
  · exact ((sortEntries_perm es1).trans h).trans (sortEntries_perm es2).symm
  · simp only [nodupKeys, decide_eq_true_eq] at hnd
    exact (((sortEntries_perm es2).map Prod.fst).nodup_iff).2 hnd

/-! ## SHA-256

Modelled from the spec: the ticket identity is the SHA-256 digest of the
canonical bytes (the hash itself is computed by the node crypto module,
outside the staged sources); this is FIPS 180-4 SHA-256 over byte lists. -/

/-- Right rotation of a 32-bit word. -/
def rotr (k x : Nat) : Nat :=
  x / 2 ^ k + x % 2 ^ k * 2 ^ (32 - k)

/-- Right shift of a 32-bit word. -/
def shr (k x : Nat) : Nat :=
  x / 2 ^ k

/-- Addition modulo 2^32. -/
def add32 (a b : Nat) : Nat :=
  (a + b) % 4294967296

/-- Big sigma 0. -/
def bsig0 (x : Nat) : Nat :=
  (rotr 2 x) ^^^ (rotr 13 x) ^^^ (rotr 22 x)

/-- Big sigma 1. -/
def bsig1 (x : Nat) : Nat :=
  (rotr 6 x) ^^^ (rotr 11 x) ^^^ (rotr 25 x)

/-- Small sigma 0. -/
def ssig0 (x : Nat) : Nat :=
  (rotr 7 x) ^^^ (rotr 18 x) ^^^ (shr 3 x)

/-- Small sigma 1. -/
def ssig1 (x : Nat) : Nat :=
  (rotr 17 x) ^^^ (rotr 19 x) ^^^ (shr 10 x)

/-- Round constants (given in decimal). -/
def sha256K : List Nat :=
  [1116352408, 1899447441, 3049323471, 3921009573, 961987163, 1508970993,
   2453635748, 2870763221, 3624381080, 310598401, 607225278, 1426881987,
   1925078388, 2162078206, 2614888103, 3248222580, 3835390401, 4022224774,
   264347078, 604807628, 770255983, 1249150122, 1555081692, 1996064986,
   2554220882, 2821834349, 2952996808, 3210313671, 3336571891, 3584528711,
   113926993, 338241895, 666307205, 773529912, 1294757372, 1396182291,
   1695183700, 1986661051, 2177026350, 2456956037, 2730485921, 2820302411,
   3259730800, 3345764771, 3516065817, 3600352804, 4094571909, 275423344,
   430227734, 506948616, 659060556, 883997877, 958139571, 1322822218,
   1537002063, 1747873779, 1955562222, 2024104815, 2227730452, 2361852424,
   2428436474, 2756734187, 3204031479, 3329325298]

/-- Initial hash words (given in decimal). -/
def sha256H0 : List Nat :=
  [1779033703, 3144134277, 1013904242, 2773480762,
   1359893119, 2600822924, 528734635, 1541459225]

/-- Extend 16 schedule words to 64. -/
def sha256Extend (w : List Nat) : List Nat :=
  (List.range 48).foldl
    (fun ws _ =>
      ws ++ [add32
        (add32 (ssig1 (ws.getD (ws.length - 2) 0)) (ws.getD (ws.length - 7) 0))
        (add32 (ssig0 (ws.getD (ws.length - 15) 0)) (ws.getD (ws.length - 16) 0))])
    w

/-- One compression round on the 8-word working state. -/
def sha256Round (st : List Nat) (kw : Nat × Nat) : List Nat :=
  match st with
  | [a, b, c, d, e, f, g, h] =>
    let ch := (e.land f) ^^^ ((e ^^^ 4294967295).land g)
    let t1 := add32 (add32 (add32 h (bsig1 e)) (add32 ch kw.2)) kw.1
    let maj := (a.land b) ^^^ (a.land c) ^^^ (b.land c)
    let t2 := add32 (bsig0 a) maj
    [add32 t1 t2, a, b, c, add32 d t1, e, f, g]
  | _ => st

/-- Compress one 64-byte block into the hash words. -/
def sha256Compress (hs block : List Nat) : List Nat :=
  let w0 := (List.range 16).map (fun i => beVal ((block.drop (4 * i)).take 4))
  let w := sha256Extend w0
  let st := (sha256K.zip w).foldl sha256Round hs
  (hs.zip st).map (fun p => add32 p.1 p.2)

/-- FIPS padding: a 1-bit, zeros, and the 8-byte big-endian bit length. -/
def sha256Pad (msg : List Nat) : List Nat :=
  msg ++ [128] ++ List.replicate ((64 - (msg.length + 9) % 64) % 64) 0
    ++ beBytes 8 (msg.length * 8)

/-- Iterate the compression over consecutive blocks. -/
def sha256Go : Nat → List Nat → List Nat → List Nat
  | 0, hs, _ => hs
  | n + 1, hs, bs => sha256Go n (sha256Compress hs (bs.take 64)) (bs.drop 64)

/-- SHA-256 digest (32 bytes) of a byte list. -/
def sha256 (msg : List Nat) : List Nat :=
  let padded := sha256Pad msg
  ((sha256Go (padded.length / 64) sha256H0 padded).map (beBytes 4)).flatten

/-! ## Ticket identity (from the `ticketId` module) -/

/-- Translated from `getTicketId` lifted to any encodable value: hash the
canonical bytes and prefix the version tag (errors from the encoder
propagate, as the thrown exception would). -/
def getTicketIdV (v : Value) : Except LibError String :=
  (encodeCbor v).map (fun bs => "ticket:v1:" ++ bytesToHex (sha256 bs))

/-- Translated from `verifyTicketId`: recompute and compare. -/
def verifyTicketIdV (v : Value) (id : String) : Except LibError Bool :=
  (getTicketIdV v).map (fun s => s == id)

/-! ## The ResolveTicket record

The schema module (zod) is out of the verified core's scope; the shape it
guarantees is a record with these eight fields, laid out in declaration
order when the record is turned into an encodable value. -/

structure ResolveTicket where
  schema : String
  deal_id : String
  action : String
  split_bps : Int
  rationale_cid : String
  confidence : Nat
  nonce : Int
  expires_at : Int

/-- A ticket as the JSON-like value the encoder receives (declaration
order of the schema's fields; `confidence` is the only non-integer
number and keeps its IEEE-754 double bit pattern). -/
def ticketToValue (t : ResolveTicket) : Value :=
  .vMap [("schema", .vStr t.schema), ("deal_id", .vStr t.deal_id),
         ("action", .vStr t.action), ("split_bps", .vInt t.split_bps),
         ("rationale_cid", .vStr t.rationale_cid), ("confidence", .vFloat t.confidence),
         ("nonce", .vInt t.nonce), ("expires_at", .vInt t.expires_at)]

theorem ticketToValue_noUndef (t : ResolveTicket) :
    containsUndef (ticketToValue t) = false := rfl

theorem encodeCbor_ticketToValue (t : ResolveTicket) :
    encodeCbor (ticketToValue t) = .ok (encV (canonV (ticketToValue t))) := by
  unfold encodeCbor
  rw [assertNoUndefined_eq, ticketToValue_noUndef]
  rfl

/-- Translated from `getTicketId` on a schema-valid ticket (the encoder
cannot fail on a ticket record, so the thrown-error branch is dead). -/
def getTicketId (t : ResolveTicket) : String :=
  match encodeCbor (ticketToValue t) with
  | .ok bs => "ticket:v1:" ++ bytesToHex (sha256 bs)
  | .error _ => ""

theorem getTicketId_eq (t : ResolveTicket) :
    getTicketId t = "ticket:v1:" ++ bytesToHex (sha256 (encV (canonV (ticketToValue t)))) := by
  unfold getTicketId
  rw [encodeCbor_ticketToValue]

/-! ## ed25519 wrappers (from src `ed25519.ts`)

The curve computations (noble's `ed25519.sign`, `.verify`,
`.getPublicKey`) are an external package, so they enter as explicit
function parameters (`signCore`, `verifyCore`, `deriveCore`); everything
the repository's own module does — length normalization, check order,
typed failures — is translated here. -/

/-- Translated from `normalizeSecret`: a 32-byte seed is used as is, the
first 32 bytes of a 64-byte expanded secret are used, anything else is
the key-length failure. -/
def normalizeSecret (secret : List Nat) : Except LibError (List Nat) :=
  if secret.length = 32 then .ok secret
  else if secret.length = 64 then .ok (secret.take 32)
  else .error .invalidKeyLength

/-- Translated from `normalizePublicKey`: exactly 32 bytes or the
key-length failure. -/
def normalizePublicKey (publicKey : List Nat) : Except LibError (List Nat) :=
  if publicKey.length = 32 then .ok publicKey else .error .invalidKeyLength

/-- Translated from `sign`. -/
def sign (signCore : List Nat → List Nat → List Nat)
    (message secret : List Nat) : Except LibError (List Nat) := do
  let seed ← normalizeSecret secret
  pure (signCore message seed)

/-- Translated from `verify`: the signature length is checked first, then
the public key length, and only then is the curve verification run. -/
def verify (verifyCore : List Nat → List Nat → List Nat → Bool)
    (message signature publicKey : List Nat) : Except LibError Bool :=
  if signature.length = 64 then
    match normalizePublicKey publicKey with
    | .ok pk => .ok (verifyCore message signature pk)
    | .error e => .error e
  else .error .invalidSignatureLength

/-- Translated from `derivePublicKey`. -/
def derivePublicKey (deriveCore : List Nat → List Nat)
    (secret : List Nat) : Except LibError (List Nat) := do
  let seed ← normalizeSecret secret
  pure (deriveCore seed)

/-! ## Quorum verification (from src `index.ts`, `verifyQuorum`) -/

/-- Translated from the loop of `verifyQuorum`: skip unauthorized keys,
skip keys that already contributed, count signatures the engine verifies;
a thrown length error propagates out of the loop. -/
def quorumLoop (verifyCore : List Nat → List Nat → List Nat → Bool)
    (authorizedPubKeys : List (List Nat)) (ticketBytes : List Nat) :
    List (List Nat × List Nat) → List String → Nat → Except LibError Nat
  | [], _, validCount => .ok validCount
  | (pubKey, sig) :: rest, usedPubKeys, validCount =>
    if authorizedPubKeys.any (fun k => decide (k = pubKey)) then
      if usedPubKeys.contains (bytesToHex pubKey) then
        quorumLoop verifyCore authorizedPubKeys ticketBytes rest usedPubKeys validCount
      else
        match verify verifyCore ticketBytes sig pubKey with
        | .ok true =>
          quorumLoop verifyCore authorizedPubKeys ticketBytes rest
            (bytesToHex pubKey :: usedPubKeys) (validCount + 1)
        | .ok false =>
          quorumLoop verifyCore authorizedPubKeys ticketBytes rest usedPubKeys validCount
        | .error e => .error e
    else
      quorumLoop verifyCore authorizedPubKeys ticketBytes rest usedPubKeys validCount

/-- Translated from `verifyQuorum`: encode the ticket, count valid,
unique, authorized signatures, compare with the threshold. -/
def verifyQuorum (verifyCore : List Nat → List Nat → List Nat → Bool)
    (ticket : ResolveTicket) (signatures : List (List Nat × List Nat))
    (authorizedPubKeys : List (List Nat)) (threshold : Nat) : Except LibError Bool := do
  let ticketBytes ← encodeCbor (ticketToValue ticket)
  let validCount ← quorumLoop verifyCore authorizedPubKeys ticketBytes signatures [] 0
  pure (decide (validCount ≥ threshold))

/-- The count described by the claim: submissions that are byte-equal to
an authorized key, whose key has not already contributed, and whose
signature verifies; a submission on which `verify` fails (malformed
lengths) does not verify and is not counted. -/
def claimQuorumCount (verifyCore : List Nat → List Nat → List Nat → Bool)
    (authorizedPubKeys : List (List Nat)) (ticketBytes : List Nat) :
    List (List Nat × List Nat) → List String → Nat
  | [], _ => 0
  | (pubKey, sig) :: rest, usedPubKeys =>
    if authorizedPubKeys.any (fun k => decide (k = pubKey)) then
      if usedPubKeys.contains (bytesToHex pubKey) then
        claimQuorumCount verifyCore authorizedPubKeys ticketBytes rest usedPubKeys
      else
        match verify verifyCore ticketBytes sig pubKey with
        | .ok true =>
          1 + claimQuorumCount verifyCore authorizedPubKeys ticketBytes rest
            (bytesToHex pubKey :: usedPubKeys)
        | _ =>
          claimQuorumCount verifyCore authorizedPubKeys ticketBytes rest usedPubKeys
    else
      claimQuorumCount verifyCore authorizedPubKeys ticketBytes rest usedPubKeys

/-! ## Replay guard (from the `ReplayGuard` class)

The class owns a `Map` from ticket identity to expiry, kept here as an
insertion-ordered association list.  `accept` in the source reads the
clock itself (`Math.floor(Date.now() / 1000)`); in this embedding the
value that read produces is the explicit `now` argument, so the guard's
dependence on the ambient clock is observable. -/

/-- Guard state: seen ticket identities with their expiry times. -/
abbrev GuardState := List (String × Int)

/-- Membership test of the seen-map. -/
def guardHas (seen : GuardState) (id : String) : Bool :=
  (seen : List (String × Int)).any (fun e => e.1 == id)

/-- Translated from `prune`: once the table is larger than 1000 entries,
drop the entries whose expiry has passed. -/
def guardPrune (seen : GuardState) (now : Int) : GuardState :=
  if (seen : List (String × Int)).length > 1000 then
    (seen : List (String × Int)).filter (fun e => !(decide (e.2 < now)))
  else seen

/-- Translated from `ReplayGuard.accept`; `now` is the value the method's
internal clock read (`Math.floor(Date.now() / 1000)`) produced. -/
def replayAccept (seen : GuardState) (ticket : ResolveTicket) (now : Int) :
    Bool × GuardState :=
  if ticket.expires_at < now then (false, seen)
  else if guardHas seen (getTicketId ticket) then (false, seen)
  else
    (true, guardPrune ((seen : List (String × Int))
      ++ [(getTicketId ticket, ticket.expires_at)]) now)

/-- The same accept with the opportunistic pruning disabled. -/
def replayAcceptNoPrune (seen : GuardState) (ticket : ResolveTicket) (now : Int) :
    Bool × GuardState :=
  if ticket.expires_at < now then (false, seen)
  else if guardHas seen (getTicketId ticket) then (false, seen)
  else
    (true, ((seen : List (String × Int))
      ++ [(getTicketId ticket, ticket.expires_at)] : List (String × Int)))

/-- Modelled from the spec: section 4.4's `accept(ticket, now)` state
machine with an injected clock and a parametric size threshold — reject
and do not record when `expires_at < now`; reject a present identity
without overwriting; otherwise record the identity, opportunistically
prune expired entries once the table exceeds the threshold, and accept. -/
def acceptSpec (sizeThreshold : Nat) (state : GuardState) (ticket : ResolveTicket)
    (now : Int) : Bool × GuardState :=
  if ticket.expires_at < now then (false, state)
  else if guardHas state (getTicketId ticket) then (false, state)
  else
    let recorded := (state : List (String × Int))
      ++ [(getTicketId ticket, ticket.expires_at)]
    (true,
      if recorded.length > sizeThreshold then
        recorded.filter (fun e => !(decide (e.2 < now)))
      else (recorded : List (String × Int)))

/-- Run the guard over a list of (ticket, observed clock value) calls. -/
def runGuard (seen : GuardState) : List (ResolveTicket × Int) → List Bool × GuardState
  | [] => ([], seen)
  | (t, now) :: rest =>
    let r := replayAccept seen t now
    let rs := runGuard r.2 rest
    (r.1 :: rs.1, rs.2)

/-- Run the prune-free guard over the same calls. -/
def runGuardNoPrune (seen : GuardState) :
    List (ResolveTicket × Int) → List Bool × GuardState
  | [] => ([], seen)
  | (t, now) :: rest =>
    let r := replayAcceptNoPrune seen t now
    let rs := runGuardNoPrune r.2 rest
    (r.1 :: rs.1, rs.2)

/-- How often a given ticket identity was accepted in one run. -/
def countAccepted (trace : List (ResolveTicket × Int)) (results : List Bool)
    (id : String) : Nat :=
  (trace.zip results).countP (fun pr => pr.2 && (getTicketId pr.1.1 == id))

/-! ## The two expiry helpers (from src `helpers.ts` and
src `resolveTicketHelpers.ts`) -/

namespace Helpers

/-- Translated from `helpers.ts`: expired when the current time is
strictly past `expires_at`. -/
def isTicketExpired (ticket : ResolveTicket) (currentTime : Int) : Bool :=
  decide (currentTime > ticket.expires_at)

end Helpers

namespace ResolveTicketHelpers

/-- Translated from `resolveTicketHelpers.ts`: expired as soon as
`expires_at` is not in the future. -/
def isTicketExpired (ticket : ResolveTicket) (nowSeconds : Int) : Bool :=
  decide (ticket.expires_at ≤ nowSeconds)

end ResolveTicketHelpers

/-! ## Quorum loop: when it returns, it returns the claim's count -/

theorem quorumLoop_ok_eq (verifyCore : List Nat → List Nat → List Nat → Bool)
    (authorizedPubKeys : List (List Nat)) (ticketBytes : List Nat) :
    ∀ (sigs : List (List Nat × List Nat)) (used : List String) (count c : Nat),
      quorumLoop verifyCore authorizedPubKeys ticketBytes sigs used count = .ok c →
      c = count + claimQuorumCount verifyCore authorizedPubKeys ticketBytes sigs used := by
  intro sigs
  induction sigs with
  | nil =>
    intro used count c h
    simp [quorumLoop] at h
    simp [claimQuorumCount, h]
  | cons ps rest ih =>
    obtain ⟨pubKey, sig⟩ := ps
    intro used count c h
    rw [quorumLoop] at h
    rw [claimQuorumCount]
    by_cases hauth : authorizedPubKeys.any (fun k => decide (k = pubKey)) = true
    · rw [if_pos hauth] at h
      rw [if_pos hauth]
      by_cases hused : used.contains (bytesToHex pubKey) = true
      · rw [if_pos hused] at h
        rw [if_pos hused]
        exact ih used count c h
      · rw [if_neg hused] at h
        rw [if_neg hused]
        cases hv : verify verifyCore ticketBytes sig pubKey with
        | ok bb =>
          cases bb with
          | true =>
            rw [hv] at h
            have := ih (bytesToHex pubKey :: used) (count + 1) c h
            show c = count + (1 + claimQuorumCount verifyCore authorizedPubKeys
              ticketBytes rest (bytesToHex pubKey :: used))
            omega
          | false =>
            rw [hv] at h
            have := ih used count c h
            show c = count
              + claimQuorumCount verifyCore authorizedPubKeys ticketBytes rest used
            omega
        | error e =>
          rw [hv] at h
          simp at h
    · rw [if_neg hauth] at h
      rw [if_neg hauth]
      exact ih used count c h

theorem verifyQuorum_ok_iff (verifyCore : List Nat → List Nat → List Nat → Bool)
    (ticket : ResolveTicket) (signatures : List (List Nat × List Nat))
    (authorizedPubKeys : List (List Nat)) (threshold : Nat) (b : Bool)
    (h : verifyQuorum verifyCore ticket signatures authorizedPubKeys threshold = .ok b) :
    (b = true ↔ claimQuorumCount verifyCore authorizedPubKeys
      (encV (canonV (ticketToValue ticket))) signatures [] ≥ threshold) := by
  unfold verifyQuorum at h
  rw [encodeCbor_ticketToValue] at h
  simp only [Bind.bind, Except.bind] at h
  cases hq : quorumLoop verifyCore authorizedPubKeys
      (encV (canonV (ticketToValue ticket))) signatures [] 0 with
  | error e => rw [hq] at h; simp [Except.pure] at h
  | ok c =>
    rw [hq] at h
    simp only [Pure.pure, Except.pure, Except.ok.injEq] at h
    have hc := quorumLoop_ok_eq verifyCore authorizedPubKeys _ signatures [] 0 c hq
    subst h
    simp only [decide_eq_true_eq]
    omega

/-! ## Replay guard lemmas -/

theorem guardHas_iff {seen : GuardState} {id : String} :
    guardHas seen id = true ↔ ∃ e ∈ seen, e.1 = id := by
  simp [guardHas, List.any_eq_true]

theorem guardHas_mono {sp su : GuardState} (hsub : sp ⊆ su) {id : String}
    (h : guardHas sp id = true) : guardHas su id = true := by
  obtain ⟨e, he, hid⟩ := guardHas_iff.1 h
  exact guardHas_iff.2 ⟨e, hsub he, hid⟩

theorem acceptNP_state (seen : GuardState) (t : ResolveTicket) (now : Int) :
    ∃ ext, (replayAcceptNoPrune seen t now).2 = seen ++ ext := by
  unfold replayAcceptNoPrune
  split_ifs
  · exact ⟨[], by simp⟩
  · exact ⟨[], by simp⟩
  · exact ⟨[(getTicketId t, t.expires_at)], rfl⟩

theorem acceptNP_true_not_has {seen : GuardState} {t : ResolveTicket} {now : Int}
    (h : (replayAcceptNoPrune seen t now).1 = true) :
    guardHas seen (getTicketId t) = false := by
  unfold replayAcceptNoPrune at h
  split_ifs at h with h1 h2
  cases hg : guardHas seen (getTicketId t)
  · rfl
  · exact absurd hg h2

theorem acceptNP_true_has {seen : GuardState} {t : ResolveTicket} {now : Int}
    (h : (replayAcceptNoPrune seen t now).1 = true) :
    guardHas (replayAcceptNoPrune seen t now).2 (getTicketId t) = true := by
  unfold replayAcceptNoPrune at h ⊢
  split_ifs at h ⊢
  simp [guardHas, List.any_append]

theorem countAccepted_cons (p : ResolveTicket × Int) (rest : List (ResolveTicket × Int))
    (b : Bool) (results : List Bool) (id : String) :
    countAccepted (p :: rest) (b :: results) id
      = countAccepted rest results id
        + (if (b && (getTicketId p.1 == id)) = true then 1 else 0) := by
  simp [countAccepted, List.countP_cons]

theorem runGuardNP_cons (seen : GuardState) (t : ResolveTicket) (now : Int)
    (rest : List (ResolveTicket × Int)) :
    runGuardNoPrune seen ((t, now) :: rest)
      = ((replayAcceptNoPrune seen t now).1
          :: (runGuardNoPrune (replayAcceptNoPrune seen t now).2 rest).1,
         (runGuardNoPrune (replayAcceptNoPrune seen t now).2 rest).2) := rfl

theorem runGuard_cons (seen : GuardState) (t : ResolveTicket) (now : Int)
    (rest : List (ResolveTicket × Int)) :
    runGuard seen ((t, now) :: rest)
      = ((replayAccept seen t now).1
          :: (runGuard (replayAccept seen t now).2 rest).1,
         (runGuard (replayAccept seen t now).2 rest).2) := rfl

theorem runGuardNP_once : ∀ (trace : List (ResolveTicket × Int)) (seen : GuardState)
    (id : String),
    (guardHas seen id = true → countAccepted trace (runGuardNoPrune seen trace).1 id = 0)
      ∧ countAccepted trace (runGuardNoPrune seen trace).1 id ≤ 1 := by
  intro trace
  induction trace with
  | nil =>
    intro seen id
    exact ⟨fun _ => by simp [runGuardNoPrune, countAccepted],
           by simp [runGuardNoPrune, countAccepted]⟩
  | cons p rest ih =>
    intro seen id
    obtain ⟨t, now⟩ := p
    rw [runGuardNP_cons]
    rw [countAccepted_cons]
    have hsubset : seen ⊆ (replayAcceptNoPrune seen t now).2 := by
      obtain ⟨ext, hext⟩ := acceptNP_state seen t now
      rw [hext]
      exact fun x hx => List.mem_append_left _ hx
    constructor
    · intro hhas
      have hcond : ((replayAcceptNoPrune seen t now).1 && (getTicketId t == id)) = false := by
        cases hb : (replayAcceptNoPrune seen t now).1
        · rfl
        · cases hid : (getTicketId t == id)
          · rfl
          · exfalso
            have hnot := acceptNP_true_not_has hb
            have heq : getTicketId t = id := by simpa using hid
            rw [heq] at hnot
            rw [hnot] at hhas
            exact Bool.false_ne_true hhas
      rw [hcond]
      simp only [Bool.false_eq_true, if_false, Nat.add_zero]
      exact (ih _ id).1 (guardHas_mono hsubset hhas)
    · cases hb : (replayAcceptNoPrune seen t now).1
      · simp only [Bool.false_and, Bool.false_eq_true, if_false, Nat.add_zero]
        exact (ih _ id).2
      · cases hid : (getTicketId t == id)
        · simp only [Bool.and_false, Bool.false_eq_true, if_false, Nat.add_zero]
          exact (ih _ id).2
        · have heq : getTicketId t = id := by simpa using hid
          have hhas2 : guardHas (replayAcceptNoPrune seen t now).2 id = true := by
            rw [← heq]
            exact acceptNP_true_has hb
          have htail := (ih (replayAcceptNoPrune seen t now).2 id).1 hhas2
          rw [htail]
          simp

theorem guardPrune_sublist (st : GuardState) (now : Int) :
    (guardPrune st now).Sublist st := by
  unfold guardPrune
  split_ifs
  · exact List.filter_sublist _
  · exact List.Sublist.refl _

theorem runGuard_prune_eq : ∀ (trace : List (ResolveTicket × Int)) (sp su : GuardState),
    sp.Sublist su →
    (∀ e ∈ su, e ∉ sp → ∀ q ∈ trace, e.2 < q.2) →
    (∀ e ∈ su, ∀ q ∈ trace, getTicketId q.1 = e.1 → q.1.expires_at = e.2) →
    List.Pairwise (fun a b : ResolveTicket × Int => a.2 ≤ b.2) trace →
    (∀ p ∈ trace, ∀ q ∈ trace, getTicketId p.1 = getTicketId q.1 → p.1 = q.1) →
    (runGuard sp trace).1 = (runGuardNoPrune su trace).1 := by
  intro trace
  induction trace with
  | nil => intro sp su _ _ _ _ _; rfl
  | cons p rest ih =>
    intro sp su hsub hinv2 hinv3 hmono hinj
    obtain ⟨t, now⟩ := p
    have hsubset : sp ⊆ su := hsub.subset
    have hpair := List.pairwise_cons.1 hmono
    have hinv2r : ∀ e ∈ su, e ∉ sp → ∀ q ∈ rest, e.2 < q.2 :=
      fun e he hns q hq => hinv2 e he hns q (List.mem_cons_of_mem _ hq)
    have hinv3r : ∀ e ∈ su, ∀ q ∈ rest, getTicketId q.1 = e.1 → q.1.expires_at = e.2 :=
      fun e he q hq => hinv3 e he q (List.mem_cons_of_mem _ hq)
    have hinjr : ∀ p2 ∈ rest, ∀ q ∈ rest, getTicketId p2.1 = getTicketId q.1 → p2.1 = q.1 :=
      fun p2 hp q hq => hinj p2 (List.mem_cons_of_mem _ hp) q (List.mem_cons_of_mem _ hq)
    rw [runGuard_cons, runGuardNP_cons]
    by_cases hexp : t.expires_at < now
    · have ha : replayAccept sp t now = (false, sp) := by
        rw [replayAccept, if_pos hexp]
      have hb : replayAcceptNoPrune su t now = (false, su) := by
        rw [replayAcceptNoPrune, if_pos hexp]
      rw [ha, hb]
      have htail := ih sp su hsub hinv2r hinv3r hpair.2 hinjr
      simp only [htail]
    · by_cases hsp : guardHas sp (getTicketId t) = true
      · have hsu : guardHas su (getTicketId t) = true := guardHas_mono hsubset hsp
        have ha : replayAccept sp t now = (false, sp) := by
          rw [replayAccept, if_neg hexp, if_pos hsp]
        have hb : replayAcceptNoPrune su t now = (false, su) := by
          rw [replayAcceptNoPrune, if_neg hexp, if_pos hsu]
        rw [ha, hb]
        have htail := ih sp su hsub hinv2r hinv3r hpair.2 hinjr
        simp only [htail]
      · by_cases hsu : guardHas su (getTicketId t) = true
        · exfalso
          obtain ⟨e, he, heid⟩ := guardHas_iff.1 hsu
          have hens : e ∉ sp := fun hin => hsp (guardHas_iff.2 ⟨e, hin, heid⟩)
          have h1 : e.2 < now := hinv2 e he hens (t, now) (List.mem_cons_self _ _)
          have h2 : t.expires_at = e.2 :=
            hinv3 e he (t, now) (List.mem_cons_self _ _) heid.symm
          exact hexp (h2 ▸ h1)
        · have ha : replayAccept sp t now
              = (true, guardPrune (sp ++ [(getTicketId t, t.expires_at)]) now) := by
            rw [replayAccept, if_neg hexp, if_neg hsp]
          have hb : replayAcceptNoPrune su t now
              = (true, su ++ [(getTicketId t, t.expires_at)]) := by
            rw [replayAcceptNoPrune, if_neg hexp, if_neg hsu]
          rw [ha, hb]
          have hsub2 : (guardPrune (sp ++ [(getTicketId t, t.expires_at)]) now).Sublist
              (su ++ [(getTicketId t, t.expires_at)]) :=
            (guardPrune_sublist _ _).trans (hsub.append (List.Sublist.refl _))
          have hinv2b : ∀ e2 ∈ su ++ [(getTicketId t, t.expires_at)],
              e2 ∉ guardPrune (sp ++ [(getTicketId t, t.expires_at)]) now →
              ∀ q ∈ rest, e2.2 < q.2 := by
            intro e2 he2 hns q hq
            rcases List.mem_append.1 he2 with h | h
            · by_cases hin : e2 ∈ sp
              · have hin2 : e2 ∈ sp ++ [(getTicketId t, t.expires_at)] :=
                  List.mem_append_left _ hin
                unfold guardPrune at hns
                by_cases hlen : (sp ++ [(getTicketId t, t.expires_at)]).length > 1000
                · rw [if_pos hlen] at hns
                  have hpe : ¬ ((!(decide (e2.2 < now))) = true) :=
                    fun hp => hns (List.mem_filter.2 ⟨hin2, hp⟩)
                  have hlt : e2.2 < now := by simpa using hpe
                  have := hpair.1 q hq
                  omega
                · rw [if_neg hlen] at hns
                  exact absurd hin2 hns
              · exact hinv2 e2 h hin q (List.mem_cons_of_mem _ hq)
            · exfalso
              apply hns
              have hx : e2 = (getTicketId t, t.expires_at) := by simpa using h
              rw [hx]
              unfold guardPrune
              split_ifs with hlen
              · refine List.mem_filter.2 ⟨List.mem_append_right _ (by simp), ?_⟩
                simp [hexp]
              · exact List.mem_append_right _ (by simp)
          have hinv3b : ∀ e2 ∈ su ++ [(getTicketId t, t.expires_at)], ∀ q ∈ rest,
              getTicketId q.1 = e2.1 → q.1.expires_at = e2.2 := by
            intro e2 he2 q hq hid
            rcases List.mem_append.1 he2 with h | h
            · exact hinv3 e2 h q (List.mem_cons_of_mem _ hq) hid
            · have hx : e2 = (getTicketId t, t.expires_at) := by simpa using h
              rw [hx] at hid ⊢
              have hqt : q.1 = t :=
                hinj q (List.mem_cons_of_mem _ hq) (t, now) (List.mem_cons_self _ _) hid
              rw [hqt]
          have htail := ih _ _ hsub2 hinv2b hinv3b hpair.2 hinjr
          simp only [htail]

/-! ## Identity invariance under key-order permutation -/

theorem canonE_eq_map (es : List (String × Value)) :
    canonE es = es.map (fun kv => (kv.1, canonV kv.2)) := by
  induction es with
  | nil => rfl
  | cons kv t ih =>
    obtain ⟨k, v⟩ := kv
    simp [canonE, ih]

theorem perm_any_eq {α : Type} {l1 l2 : List α} (h : l1.Perm l2) (p : α → Bool) :
    l1.any p = l2.any p := by
  induction h with
  | nil => rfl
  | cons x _ ih => simp [List.any_cons, ih]
  | swap x y l => simp [List.any_cons, Bool.or_left_comm, Bool.or_comm]
  | trans _ _ ih1 ih2 => rw [ih1, ih2]

theorem containsUndefEntries_eq_any (es : List (String × Value)) :
    containsUndefEntries es = es.any (fun kv => containsUndef kv.2) := by
  induction es with
  | nil => rfl
  | cons kv t ih =>
    obtain ⟨k, v⟩ := kv
    simp [containsUndefEntries, List.any_cons, ih]

theorem encodeCbor_map_perm {l1 l2 : List (String × Value)} (hperm : l1.Perm l2)
    (hnd : (l1.map Prod.fst).Nodup) :
    encodeCbor (.vMap l1) = encodeCbor (.vMap l2) := by
  have hcu : containsUndef (.vMap l1) = containsUndef (.vMap l2) := by
    rw [show containsUndef (.vMap l1) = containsUndefEntries l1 from rfl]
    rw [show containsUndef (.vMap l2) = containsUndefEntries l2 from rfl]
    rw [containsUndefEntries_eq_any, containsUndefEntries_eq_any]
    exact perm_any_eq hperm _
  have hcanon : canonV (.vMap l1) = canonV (.vMap l2) := by
    rw [show canonV (.vMap l1) = .vMap (sortEntries (canonE l1)) from rfl]
    rw [show canonV (.vMap l2) = .vMap (sortEntries (canonE l2)) from rfl]
    have hpc : (canonE l1).Perm (canonE l2) := by
      rw [canonE_eq_map, canonE_eq_map]
      exact hperm.map _
    have hnd2 : nodupKeys (canonE l2) = true := by
      simp only [nodupKeys, decide_eq_true_eq, canonE_fst]
      exact ((hperm.map Prod.fst).nodup_iff).1 hnd
    rw [sortEntries_eq_of_perm hpc hnd2]
  unfold encodeCbor
  rw [assertNoUndefined_eq, assertNoUndefined_eq, hcu, hcanon]

/-! ## Concrete sample inputs used by closed witnesses and counterexamples -/

/-- A concrete schema-shaped ticket (field values kept small). -/
def sampleTicket : ResolveTicket :=
  ⟨"s", "d", "R", 0, "c", 0, 1, 10⟩

/-- A concrete 32-byte public key. -/
def samplePubKey : List Nat := List.replicate 32 1

/-- A malformed 63-byte signature. -/
def sampleSig63 : List Nat := List.replicate 63 0

/-- A concrete curve-verifier instantiation for closed statements whose
truth does not depend on the curve core. -/
def sampleVerifyCore : List Nat → List Nat → List Nat → Bool :=
  fun _ _ _ => false

/-- A concrete curve-signer instantiation for closed statements whose
truth does not depend on the curve core. -/
def sampleSignCore : List Nat → List Nat → List Nat :=
  fun _ _ => List.replicate 64 0

/-- A concrete key-derivation instantiation for closed statements whose
truth does not depend on the curve core. -/
def sampleDeriveCore : List Nat → List Nat :=
  fun _ => List.replicate 32 0

/-- A concrete two-call trace replaying the same ticket. -/
def sampleTrace : List (ResolveTicket × Int) := [(sampleTicket, 5), (sampleTicket, 6)]

/-- A concrete nested value exercising every constructor the encoder
round-trips. -/
def sampleValue : Value :=
  .vMap [("b", .vInt 1),
         ("a", .vArr [.vStr "hi", .vNull, .vBool true,
                      .vFloat 4607182418800017408, .vInt (-5)]),
         ("c", .vMap [("y", .vInt 0), ("x", .vStr "z")])]

/-- Entry lists that are key-order permutations of one another. -/
def sampleMapA : List (String × Value) := [("b", .vInt 1), ("a", .vNull)]

/-- The same mapping as `sampleMapA` with the entries swapped. -/
def sampleMapB : List (String × Value) := [("a", .vNull), ("b", .vInt 1)]

/-! ## Claim theorems -/

/-- C1 (counterexample): the claim's equivalence — `verifyQuorum` returns
true exactly when the count of authorized, non-duplicate, verifying
submissions reaches the threshold — is false as stated: with threshold 0
and one authorized submission carrying a 63-byte signature, the count (0)
reaches the threshold but the call does not return true; it fails with
the typed signature-length error, as the spec's error-handling section
prescribes for malformed lengths. -/
theorem quorum_malformed_counterexample :
    (∀ core : List Nat → List Nat → List Nat → Bool,
      verifyQuorum core sampleTicket [(samplePubKey, sampleSig63)]
        [samplePubKey] 0 = .error .invalidSignatureLength)
    ∧ claimQuorumCount sampleVerifyCore [samplePubKey]
        (encV (canonV (ticketToValue sampleTicket))) [(samplePubKey, sampleSig63)] [] ≥ 0
    ∧ ¬ (verifyQuorum sampleVerifyCore sampleTicket [(samplePubKey, sampleSig63)]
        [samplePubKey] 0 = .ok true) := by
  have h1 : ∀ core : List Nat → List Nat → List Nat → Bool,
      verifyQuorum core sampleTicket [(samplePubKey, sampleSig63)]
        [samplePubKey] 0 = .error .invalidSignatureLength := by
    intro core
    unfold verifyQuorum
    rw [encodeCbor_ticketToValue]
    have hauth : ([samplePubKey].any (fun k => decide (k = samplePubKey))) = true := by
      decide
    have hlen : ¬ sampleSig63.length = 64 := by decide
    have hv : verify core (encV (canonV (ticketToValue sampleTicket))) sampleSig63
        samplePubKey = .error .invalidSignatureLength := by
      rw [verify, if_neg hlen]
    simp [Bind.bind, Except.bind, quorumLoop, hauth, hv]
  refine ⟨h1, Nat.zero_le _, fun h => ?_⟩
  rw [h1 sampleVerifyCore] at h
  exact Except.noConfusion h

/-- C1 (amended): for every curve core, ticket, signature list, allowlist
and threshold, whenever `verifyQuorum` returns a boolean it returns true
exactly when the number of submissions that are byte-equal to some
authorized key, whose key has not already contributed a counted
signature in this call, and whose signature verifies against the
canonical encoding of the ticket, is at least the threshold (so a
duplicate signer counts once and an unauthorized key is ignored, by the
shape of that count); and with an empty signature list and threshold 0
it returns true. -/
theorem verifyQuorum_boolean_iff_count
    (verifyCore : List Nat → List Nat → List Nat → Bool) (ticket : ResolveTicket)
    (signatures : List (List Nat × List Nat)) (authorizedPubKeys : List (List Nat))
    (threshold : Nat) :
    (∀ b, verifyQuorum verifyCore ticket signatures authorizedPubKeys threshold = .ok b →
      (b = true ↔ claimQuorumCount verifyCore authorizedPubKeys
        (encV (canonV (ticketToValue ticket))) signatures [] ≥ threshold))
    ∧ verifyQuorum verifyCore ticket [] authorizedPubKeys 0 = .ok true := by
  constructor
  · intro b h
    exact verifyQuorum_ok_iff verifyCore ticket signatures authorizedPubKeys threshold b h
  · unfold verifyQuorum
    rw [encodeCbor_ticketToValue]
    simp [Bind.bind, Except.bind, quorumLoop, Pure.pure, Except.pure]

/-- C2: over any call sequence on one guard instance in which the
observed clock values are non-decreasing and no two distinct tickets of
the sequence collide on their Ticket Identity (the design's collision
resistance assumption), the pruning guard returns exactly the decisions
of the prune-free guard, and each Ticket Identity is accepted at most
once over the whole run. -/
theorem replayGuard_at_most_once_prune_irrelevant
    (trace : List (ResolveTicket × Int))
    (hchain : List.Chain' (fun a b : ResolveTicket × Int => a.2 ≤ b.2) trace)
    (hinj : ∀ p ∈ trace, ∀ q ∈ trace, getTicketId p.1 = getTicketId q.1 → p.1 = q.1) :
    (runGuard [] trace).1 = (runGuardNoPrune [] trace).1
    ∧ ∀ id, countAccepted trace (runGuard [] trace).1 id ≤ 1 := by
  have hpw : List.Pairwise (fun a b : ResolveTicket × Int => a.2 ≤ b.2) trace := by
    haveI : IsTrans (ResolveTicket × Int) (fun a b => a.2 ≤ b.2) :=
      ⟨fun _ _ _ h1 h2 => le_trans h1 h2⟩
    exact List.chain'_iff_pairwise.1 hchain
  have heq := runGuard_prune_eq trace [] [] (List.Sublist.refl _)
    (by simp) (by simp) hpw hinj
  refine ⟨heq, fun id => ?_⟩
  rw [heq]
  exact (runGuardNP_once trace [] id).2

/-- C2 witness: the guarantees instantiated on a concrete two-call trace
that replays one ticket at non-decreasing times. -/
theorem replayGuard_at_most_once_prune_irrelevant_witness :
    (runGuard [] sampleTrace).1 = (runGuardNoPrune [] sampleTrace).1
    ∧ ∀ id, countAccepted sampleTrace (runGuard [] sampleTrace).1 id ≤ 1 :=
  replayGuard_at_most_once_prune_irrelevant sampleTrace
    (List.chain'_cons.2 ⟨by norm_num, List.chain'_singleton _⟩)
    (by
      intro p hp q hq _
      simp [sampleTrace] at hp hq
      rcases hp with rfl | rfl <;> rcases hq with rfl | rfl <;> rfl)

/-- C3: for every structurally valid value the encoder accepts (no
absent marker, CBOR-range numbers and lengths, duplicate-free object
keys), encoding succeeds and decoding the produced bytes returns a value
that is the same mapping as the input (deep equality, order-insensitive
on objects, as JavaScript equality of decoded objects is). -/
theorem cbor_decode_encode_roundtrip (v : Value) (hwf : wfV v = true) :
    ∃ bs w, encodeCbor v = .ok bs ∧ decodeCbor bs = .ok w ∧ sEqV w v = true :=
  ⟨encV (canonV v), canonV v, encodeCbor_ok v hwf, decodeCbor_encV_canonV v hwf,
    canonV_structEq v hwf⟩

/-- C3 witness: the round trip instantiated on a concrete nested value
covering strings, integers, a float, booleans, null, an array and nested
maps. -/
theorem cbor_decode_encode_roundtrip_witness :
    wfV sampleValue = true
    ∧ ∃ bs w, encodeCbor sampleValue = .ok bs ∧ decodeCbor bs = .ok w
        ∧ sEqV w sampleValue = true :=
  ⟨by decide, cbor_decode_encode_roundtrip sampleValue (by decide)⟩

/-- C4: one accept call behaves as specified for every guard state,
ticket and current time: an expired ticket (expires_at < now) is
rejected with the state unchanged, a ticket whose identity is already
present is rejected with the state unchanged (in particular its recorded
expiry is not overwritten), and a fresh ticket with future expiry is
accepted with its identity recorded against its expiry. -/
theorem replayAccept_spec_cases (seen : GuardState) (t : ResolveTicket) (now : Int) :
    (t.expires_at < now → replayAccept seen t now = (false, seen))
    ∧ (guardHas seen (getTicketId t) = true → replayAccept seen t now = (false, seen))
    ∧ (now < t.expires_at → guardHas seen (getTicketId t) = false →
        (replayAccept seen t now).1 = true
        ∧ (getTicketId t, t.expires_at) ∈ (replayAccept seen t now).2) := by
  refine ⟨fun h => by rw [replayAccept, if_pos h], fun hhas => ?_, fun hfut hfresh => ?_⟩
  · by_cases hexp : t.expires_at < now
    · rw [replayAccept, if_pos hexp]
    · rw [replayAccept, if_neg hexp, if_pos hhas]
  · have hexp : ¬ t.expires_at < now := by omega
    have hfresh2 : ¬ guardHas seen (getTicketId t) = true := by simp [hfresh]
    rw [replayAccept, if_neg hexp, if_neg hfresh2]
    refine ⟨rfl, ?_⟩
    show (getTicketId t, t.expires_at)
      ∈ guardPrune (seen ++ [(getTicketId t, t.expires_at)]) now
    unfold guardPrune
    split_ifs with hlen
    · refine List.mem_filter.2 ⟨List.mem_append_right _ (by simp), ?_⟩
      simp [hexp]
    · exact List.mem_append_right _ (by simp)

/-- C5 (counterexample): the claim that `accept` takes the current time
as an explicit parameter and never reads a global clock is false on the
code: the method reads `Date.now()` itself, so for a fixed guard state
and ticket the result varies with the ambient clock reading (accepted at
clock 5, rejected as expired at clock 100), which no caller-supplied
argument accounts for. -/
theorem replayAccept_reads_ambient_clock :
    (replayAccept [] sampleTicket 5).1 = true
    ∧ (replayAccept [] sampleTicket 100).1 = false
    ∧ replayAccept [] sampleTicket 5 ≠ replayAccept [] sampleTicket 100 := by
  refine ⟨rfl, rfl, fun h => ?_⟩
  have h1 : (replayAccept [] sampleTicket 5).1 = (replayAccept [] sampleTicket 100).1 := by
    rw [h]
  rw [show (replayAccept [] sampleTicket 5).1 = true from rfl] at h1
  rw [show (replayAccept [] sampleTicket 100).1 = false from rfl] at h1
  exact Bool.noConfusion h1

/-- C5 (amended): `accept` takes only the ticket and reads the global
clock internally (`Math.floor(Date.now() / 1000)`); for every observed
clock value its result is exactly the spec's injected-clock
`accept(ticket, now)` state machine at size threshold 1000, so the
behaviour is a deterministic function of the guard state, the ticket and
the observed clock value. -/
theorem replayAccept_matches_injected_clock_spec
    (seen : GuardState) (t : ResolveTicket) (now : Int) :
    replayAccept seen t now = acceptSpec 1000 seen t now := rfl

/-- C6: for every curve core, message, signature and public key, a
signature that is not exactly 64 bytes fails with the typed
signature-length error and a 64-byte signature with a public key that is
not exactly 32 bytes fails with the typed key-length error — in both
cases uniformly in the curve core, so before any cryptographic
comparison — while well-formed lengths always produce a boolean (the
curve core's verdict) and never an error. -/
theorem verify_length_guards (verifyCore : List Nat → List Nat → List Nat → Bool)
    (m sg pk : List Nat) :
    (sg.length ≠ 64 → verify verifyCore m sg pk = .error .invalidSignatureLength)
    ∧ (sg.length = 64 → pk.length ≠ 32 →
        verify verifyCore m sg pk = .error .invalidKeyLength)
    ∧ (sg.length = 64 → pk.length = 32 →
        verify verifyCore m sg pk = .ok (verifyCore m sg pk)) := by
  refine ⟨fun h => by rw [verify, if_neg h], fun h1 h2 => ?_, fun h1 h2 => ?_⟩
  · rw [verify, if_pos h1]
    simp [normalizePublicKey, h2]
  · rw [verify, if_pos h1]
    simp [normalizePublicKey, h2]

/-- C7: encoding fails with the encoding error exactly when the value
contains the absent (`undefined`) marker at some depth — at the root,
below a mapping value or inside a sequence element — and a value free of
the marker is never rejected: encoding then succeeds. -/
theorem encodeCbor_error_iff_undef (v : Value) :
    (encodeCbor v = .error .encodingError ↔ containsUndef v = true)
    ∧ (containsUndef v = false → ∃ bs, encodeCbor v = .ok bs) := by
  unfold encodeCbor
  rw [assertNoUndefined_eq]
  cases hcu : containsUndef v <;>
    simp [hcu, Bind.bind, Except.bind, Pure.pure, Except.pure]

/-- C8: the ticket identity is the string "ticket:v1:" followed by the
lowercase hex SHA-256 digest of the value's canonical encoding; it is
invariant under permutation of the key insertion order of the encoded
mapping; and `verifyTicketId` holds exactly when the given string equals
the recomputed identity. -/
theorem ticketId_formula_perm_verify (v : Value) (bs : List Nat)
    (l1 l2 : List (String × Value)) (id : String)
    (henc : encodeCbor v = .ok bs)
    (hperm : l1.Perm l2)
    (hnd : (l1.map Prod.fst).Nodup) :
    getTicketIdV v = .ok ("ticket:v1:" ++ bytesToHex (sha256 bs))
    ∧ getTicketIdV (.vMap l1) = getTicketIdV (.vMap l2)
    ∧ (verifyTicketIdV v id = .ok true ↔ getTicketIdV v = .ok id) := by
  refine ⟨?_, ?_, ?_⟩
  · unfold getTicketIdV
    rw [henc]
    rfl
  · unfold getTicketIdV
    rw [encodeCbor_map_perm hperm hnd]
  · unfold verifyTicketIdV getTicketIdV
    rw [henc]
    simp [Except.map]

/-- C8 witness: the identity formula, permutation invariance and
verification equivalence instantiated on concrete values. -/
theorem ticketId_formula_perm_verify_witness :
    getTicketIdV (.vMap [("a", Value.vNull)])
      = .ok ("ticket:v1:" ++ bytesToHex (sha256 [161, 97, 97, 246]))
    ∧ getTicketIdV (.vMap sampleMapA) = getTicketIdV (.vMap sampleMapB)
    ∧ (verifyTicketIdV (.vMap [("a", Value.vNull)]) "q" = .ok true
        ↔ getTicketIdV (.vMap [("a", Value.vNull)]) = .ok "q") :=
  ticketId_formula_perm_verify (.vMap [("a", Value.vNull)]) [161, 97, 97, 246]
    sampleMapA sampleMapB "q" (by decide)
    (List.Perm.swap ("a", Value.vNull) ("b", Value.vInt 1) []) (by decide)

/-- C9: signing and public-key derivation accept a 32-byte secret as the
seed or a 64-byte secret of which only the first 32 bytes are used, and
fail with the typed key-length error for any other length; consequently
a 64-byte secret signs and derives exactly as its first 32 bytes do. -/
theorem sign_derive_secret_lengths (signCore : List Nat → List Nat → List Nat)
    (deriveCore : List Nat → List Nat) (m s : List Nat) :
    (s.length ≠ 32 → s.length ≠ 64 →
        sign signCore m s = .error .invalidKeyLength
        ∧ derivePublicKey deriveCore s = .error .invalidKeyLength)
    ∧ (s.length = 64 →
        sign signCore m s = sign signCore m (s.take 32)
        ∧ derivePublicKey deriveCore s = derivePublicKey deriveCore (s.take 32))
    ∧ (s.length = 32 →
        sign signCore m s = .ok (signCore m s)
        ∧ derivePublicKey deriveCore s = .ok (deriveCore s)) := by
  refine ⟨fun h32 h64 => ?_, fun h64 => ?_, fun h32 => ?_⟩
  · constructor <;>
      simp [sign, derivePublicKey, normalizeSecret, h32, h64, Bind.bind, Except.bind]
  · have htake : (s.take 32).length = 32 := by
      rw [List.length_take]
      omega
    have hns : normalizeSecret s = .ok (s.take 32) := by
      rw [normalizeSecret, if_neg (by omega), if_pos h64]
    have hns2 : normalizeSecret (s.take 32) = .ok (s.take 32) := by
      rw [normalizeSecret, if_pos htake]
    constructor <;>
      simp [sign, derivePublicKey, hns, hns2, Bind.bind, Except.bind, Pure.pure,
        Except.pure]
  · have hns : normalizeSecret s = .ok s := by rw [normalizeSecret, if_pos h32]
    constructor <;>
      simp [sign, derivePublicKey, hns, Bind.bind, Except.bind, Pure.pure, Except.pure]

/-- C10: the two exported expiry predicates disagree exactly at the
boundary: the helpers module reports expired iff now is strictly past
expires_at, the resolve-helpers module reports expired iff expires_at is
at most now, so a ticket expiring exactly now is not expired for the
former and expired for the latter. -/
theorem isTicketExpired_boundary_disagreement (t : ResolveTicket) (now : Int) :
    (Helpers.isTicketExpired t now = true ↔ now > t.expires_at)
    ∧ (ResolveTicketHelpers.isTicketExpired t now = true ↔ t.expires_at ≤ now)
    ∧ (t.expires_at = now →
        Helpers.isTicketExpired t now = false
        ∧ ResolveTicketHelpers.isTicketExpired t now = true) := by
  refine ⟨?_, ?_, fun h => ?_⟩
  · simp [Helpers.isTicketExpired]
  · simp [ResolveTicketHelpers.isTicketExpired]
  · constructor
    · simp [Helpers.isTicketExpired]
      omega
    · simp [ResolveTicketHelpers.isTicketExpired]
      omega

end Tickets
